import Mathlib

/-!
# Sigil: `HTMLEncodingResolver`

A shallow embedding of `src/Sigil/Misc/HTMLEncodingResolver.cpp` and the
properties of its UTF-8 validator and of the codec resolution built on it.

Bytes are natural numbers (the `unsigned char` view of the buffer, `0..255`);
a `QByteArray` is a list of bytes, and a possibly-null `QByteArray` is an
`Option` of one (`none` is the null array).
-/

namespace Sigil

/-! ## `QByteArray` operations used by the validator -/

/-- The `QByteArray::mid(pos, len)` of the source: at most `len` bytes from `pos`. -/
def mid (string : List Nat) (pos len : Nat) : List Nat :=
  (string.drop pos).take len

/-- The `QByteArray::leftJustified(width, fill)` of the source, on an array no
longer than `width`: the array followed by `fill` up to `width` bytes. -/
def leftJustified (string : List Nat) (width fill : Nat) : List Nat :=
  string ++ List.replicate (width - string.length) fill

/-- The four bytes the loop body inspects at `index`: `string.mid(index, 4)`,
zero-padded to four bytes when fewer remain. -/
def dwordAt (string : List Nat) (index : Nat) : List Nat :=
  let dword := mid string index 4
  if dword.length < 4 then leftJustified dword 4 0 else dword

/-- The `bytes[k]` of the source: the `k`-th byte of the four-byte window. -/
def byteOf (dword : List Nat) (k : Nat) : Nat :=
  dword.getD k 0

/-! ## The four branches of the validator loop -/

/-- The `// ASCII` branch condition. -/
def isAscii (b0 : Nat) : Prop :=
  b0 = 0x09 ∨ b0 = 0x0A ∨ b0 = 0x0D ∨ (0x20 ≤ b0 ∧ b0 ≤ 0x7E)

/-- The `// non-overlong 2-byte` branch condition. -/
def isTwoByte (b0 b1 : Nat) : Prop :=
  (0xC2 ≤ b0 ∧ b0 ≤ 0xDF) ∧ (0x80 ≤ b1 ∧ b1 ≤ 0xBF)

/-- The three-byte branch condition: `0xE0` excluding overlongs, straight
three-byte leads, `0xED` excluding surrogates. -/
def isThreeByte (b0 b1 b2 : Nat) : Prop :=
  (b0 = 0xE0 ∧ (0xA0 ≤ b1 ∧ b1 ≤ 0xBF) ∧ (0x80 ≤ b2 ∧ b2 ≤ 0xBF)) ∨
  (((0xE1 ≤ b0 ∧ b0 ≤ 0xEC) ∨ b0 = 0xEE ∨ b0 = 0xEF) ∧
    (0x80 ≤ b1 ∧ b1 ≤ 0xBF) ∧ (0x80 ≤ b2 ∧ b2 ≤ 0xBF)) ∨
  (b0 = 0xED ∧ (0x80 ≤ b1 ∧ b1 ≤ 0x9F) ∧ (0x80 ≤ b2 ∧ b2 ≤ 0xBF))

/-- The four-byte branch condition: planes 1-3, planes 4-15, plane 16. -/
def isFourByte (b0 b1 b2 b3 : Nat) : Prop :=
  (b0 = 0xF0 ∧ (0x90 ≤ b1 ∧ b1 ≤ 0xBF) ∧ (0x80 ≤ b2 ∧ b2 ≤ 0xBF) ∧
    (0x80 ≤ b3 ∧ b3 ≤ 0xBF)) ∨
  ((0xF1 ≤ b0 ∧ b0 ≤ 0xF3) ∧ (0x80 ≤ b1 ∧ b1 ≤ 0xBF) ∧ (0x80 ≤ b2 ∧ b2 ≤ 0xBF) ∧
    (0x80 ≤ b3 ∧ b3 ≤ 0xBF)) ∨
  (b0 = 0xF4 ∧ (0x80 ≤ b1 ∧ b1 ≤ 0x8F) ∧ (0x80 ≤ b2 ∧ b2 ≤ 0xBF) ∧
    (0x80 ≤ b3 ∧ b3 ≤ 0xBF))

instance (b0 : Nat) : Decidable (isAscii b0) := by
  unfold isAscii; infer_instance

instance (b0 b1 : Nat) : Decidable (isTwoByte b0 b1) := by
  unfold isTwoByte; infer_instance

instance (b0 b1 b2 : Nat) : Decidable (isThreeByte b0 b1 b2) := by
  unfold isThreeByte; infer_instance

instance (b0 b1 b2 b3 : Nat) : Decidable (isFourByte b0 b1 b2 b3) := by
  unfold isFourByte; infer_instance

/-- The `while ( index < string.size() )` loop of `IsValidUtf8`, from the loop
state `index`: each round reads the window at `index`, advances by 1, 2, 3 or 4
on a matching branch and returns `false` on none; leaving the loop returns
`true`. -/
def utf8Loop (string : List Nat) (index : Nat) : Bool :=
  if index < string.length then
    let dword := dwordAt string index
    if isAscii (byteOf dword 0) then
      utf8Loop string (index + 1)
    else if isTwoByte (byteOf dword 0) (byteOf dword 1) then
      utf8Loop string (index + 2)
    else if isThreeByte (byteOf dword 0) (byteOf dword 1) (byteOf dword 2) then
      utf8Loop string (index + 3)
    else if isFourByte (byteOf dword 0) (byteOf dword 1) (byteOf dword 2) (byteOf dword 3) then
      utf8Loop string (index + 4)
    else
      false
  else
    true
termination_by string.length - index
decreasing_by all_goals simp_wf; omega

/-- The `HTMLEncodingResolver::IsValidUtf8` of the source: `false` on the null
array, otherwise the loop from index 0. -/
def IsValidUtf8 (string : Option (List Nat)) : Bool :=
  match string with
  | none => false
  | some bytes => utf8Loop bytes 0

/-! ## Text (`QString`) and its conversions

A `QString` is a list of characters. The text the resolver works on is built
from bytes, so every character of it lies in the Latin-1 range. -/

/-- The `QString ascii_data = raw_text` conversion of Qt 4: the bytes up to the
first NUL, each read as the Latin-1 character of that code; the null array gives
the empty text. -/
def fromAscii (raw_text : Option (List Nat)) : List Char :=
  match raw_text with
  | none => []
  | some bytes => (bytes.takeWhile (fun b => b != 0)).map Char.ofNat

/-- The `QString::toAscii` of Qt 4: the Latin-1 code of each character, and
`?` for a character outside Latin-1. -/
def toAscii (text : List Char) : List Nat :=
  text.map (fun c => if c.toNat < 256 then c.toNat else 0x3F)

/-- The bytes of a C string literal of the source. -/
def cstr (literal : String) : List Nat :=
  toAscii literal.toList

/-- The `QChar::isSpace` of Qt 4 on the Latin-1 range, which `\s` of a `QRegExp`
tests: tab to carriage return, space, no-break space. -/
def isSpace (c : Char) : Bool :=
  (9 ≤ c.toNat && c.toNat ≤ 13) || c.toNat == 0x20 || c.toNat == 0xA0

/-! ## The declaration normalizer

`ascii_data.replace( QRegExp( "<\\s*meta([^>]*)http-equiv=\"Content-Type\"([^>]*)>" ),
"<meta http-equiv=\"Content-Type\" \\1 \\2>" )`: every non-overlapping match of
the pattern, leftmost first, is replaced. -/

/-- The literal `http-equiv="Content-Type"` of the pattern. -/
def httpEquiv : List Char :=
  "http-equiv=\"Content-Type\"".toList

/-- The text before and after the last occurrence of `needle` in a text, when
it occurs: what a greedy `(.*)needle(.*)` captures. -/
def splitAtLast (needle : List Char) : List Char → Option (List Char × List Char)
  | [] => none
  | c :: cs =>
    match splitAtLast needle cs with
    | some (before, after) => some (c :: before, after)
    | none =>
      if needle.isPrefixOf (c :: cs) then some ([], (c :: cs).drop needle.length)
      else none

/-- One match of the normalizer pattern: the two captures and the number of
characters matched. -/
structure MetaMatch where
  cap1 : List Char
  cap2 : List Char
  length : Nat
deriving DecidableEq, Repr

/-- A match of `<\s*meta([^>]*)http-equiv="Content-Type"([^>]*)>` at the start of
`text`: `<`, the whole run of white space, `meta`, then the tag body up to the
first `>`, which has to contain the `http-equiv` literal; the first capture is
greedy, so it ends at the last occurrence of the literal in the body. -/
def matchMetaAt (text : List Char) : Option MetaMatch :=
  match text with
  | [] => none
  | c :: t1 =>
    if c = '<' then
      let ws := t1.takeWhile isSpace
      let t2 := t1.dropWhile isSpace
      if "meta".toList.isPrefixOf t2 then
        let t3 := t2.drop 4
        let body := t3.takeWhile (fun x => x != '>')
        if body.length < t3.length then
          match splitAtLast httpEquiv body with
          | some (cap1, cap2) => some ⟨cap1, cap2, 1 + ws.length + 4 + body.length + 1⟩
          | none => none
        else none
      else none
    else none

/-- The replacement text `<meta http-equiv="Content-Type" \1 \2>` for a match. -/
def metaReplacement (m : MetaMatch) : List Char :=
  "<meta http-equiv=\"Content-Type\" ".toList ++ m.cap1 ++ [' '] ++ m.cap2 ++ ['>']

/-- The global replacement, scanning left to right; `skip` counts the characters
still covered by the match replaced last. -/
def replaceMeta : Nat → List Char → List Char
  | _, [] => []
  | skip + 1, _ :: cs => replaceMeta skip cs
  | 0, c :: cs =>
    match matchMetaAt (c :: cs) with
    | some m => metaReplacement m ++ replaceMeta (m.length - 1) cs
    | none => c :: replaceMeta 0 cs

/-- The declaration normalizer: the `replace` call of `GetCodecForHTML`. -/
def normalize (text : List Char) : List Char :=
  replaceMeta 0 text

/-! ## The head section and the two declaration patterns -/

/-- Modelled from the spec: the constant `HEAD_END` is declared outside `src/`;
the spec gives the head section as "delimited by a case-insensitive `</head>`
marker". Whether the marker stands at the start of `text`. -/
def isHeadEndAt (text : List Char) : Bool :=
  (text.take 7).map Char.toLower == "</head>".toList

/-- The `ascii_data.indexOf( QRegExp( HEAD_END ) )` of the source: the index of
the first head-end marker, `none` for the `-1` of no match. -/
def indexOfHeadEnd : List Char → Option Nat
  | [] => none
  | c :: cs =>
    if isHeadEndAt (c :: cs) then some 0
    else (indexOfHeadEnd cs).map (fun k => k + 1)

/-- Modelled from the spec: `Utility::Substring` is declared outside `src/`; the
head it cuts is the text before the head-end marker, that is the characters in
`[start_index, end_index)`. -/
def Substring (start_index end_index : Nat) (string : List Char) : List Char :=
  (string.drop start_index).take (end_index - start_index)

/-- A match of `lit([^"]+)"` at the start of `text`, for a literal `lit`: the
literal, then the whole non-empty run of characters other than `"`, then a `"`.
The result is the captured run. -/
def matchValueAt (lit text : List Char) : Option (List Char) :=
  if lit.isPrefixOf text then
    let rest := text.drop lit.length
    let value := rest.takeWhile (fun x => x != '"')
    if value ≠ [] ∧ value.length < rest.length then some value else none
  else none

/-- The `head.indexOf( rx )` followed by `rx.cap( 1 )` of the source, for the
pattern `lit([^"]+)"`: the capture of the leftmost match, and the empty text
when there is none. -/
def cap1Of (lit : List Char) : List Char → List Char
  | [] => []
  | c :: cs =>
    match matchValueAt lit (c :: cs) with
    | some value => value
    | none => cap1Of lit cs

/-- The capture of `QRegExp charset( "charset=([^\"]+)\"" )` in the head. -/
def charsetCap (head : List Char) : List Char :=
  cap1Of "charset=".toList head

/-- The capture of `QRegExp encoding( "encoding=\"([^\"]+)\"" )` in the head. -/
def encodingCap (head : List Char) : List Char :=
  cap1Of "encoding=\"".toList head

/-! ## Codecs and the resolver -/

/-- A `QTextCodec`, known by its `name()`. -/
structure QTextCodec where
  name : String
deriving DecidableEq, Repr

/-- The Qt services the resolver calls: `QTextCodec::codecForLocale()`,
`QTextCodec::codecForHtml( bytes, defaultCodec )` (the sniffer) and
`QTextCodec::codecForName( name )` (the registry; `none` is the null pointer). -/
structure Qt where
  codecForLocale : QTextCodec
  codecForHtml : List Nat → QTextCodec → QTextCodec
  codecForName : List Nat → Option QTextCodec

/-- The `if ( head_end != -1 ) { ... }` block of `GetCodecForHTML`: the codec it
returns, or `none` when control falls through to the UTF-8 test. -/
def declaredCodec (qt : Qt) (ascii_data : List Char) : Option QTextCodec :=
  match indexOfHeadEnd ascii_data with
  | some head_end =>
    let head := Substring 0 head_end ascii_data
    let charset_codec := qt.codecForName (toAscii (charsetCap head))
    let encoding_codec := qt.codecForName (toAscii (encodingCap head))
    match charset_codec with
    | some codec => some codec
    | none => encoding_codec
  | none => none

/-- The `HTMLEncodingResolver::GetCodecForHTML` of the source. The result is
`none` only where the source dereferences the null pointer that
`codecForName( "UTF-8" )` gives for a registry without UTF-8. -/
def GetCodecForHTML (qt : Qt) (raw_text : Option (List Nat)) : Option QTextCodec :=
  let ascii_data := normalize (fromAscii raw_text)
  let locale_codec := qt.codecForLocale
  let detected_codec := qt.codecForHtml (toAscii ascii_data) qt.codecForLocale
  if detected_codec.name = locale_codec.name then
    match declaredCodec qt ascii_data with
    | some codec => some codec
    | none =>
      if IsValidUtf8 raw_text then qt.codecForName (cstr "UTF-8")
      else some locale_codec
  else
    some detected_codec

/-- Whether the normalizer pattern matches somewhere in the text. -/
def hasMetaMatch : List Char → Bool
  | [] => false
  | c :: cs => (matchMetaAt (c :: cs)).isSome || hasMetaMatch cs

/-- An installation whose locale codec is ISO-8859-1, whose sniffer detects
nothing (it returns the default it is given) and whose registry knows UTF-8 and
ISO-8859-1. -/
def latin1Qt : Qt where
  codecForLocale := ⟨"ISO-8859-1"⟩
  codecForHtml := fun _ defaultCodec => defaultCodec
  codecForName := fun name =>
    if name = cstr "UTF-8" then some ⟨"UTF-8"⟩
    else if name = cstr "ISO-8859-1" then some ⟨"ISO-8859-1"⟩
    else none

/-! ## The table of spec section 4.3 -/

/-- A continuation byte of the table: `0x80..0xBF`. -/
def isContinuation (b : Nat) : Prop :=
  0x80 ≤ b ∧ b ≤ 0xBF

instance (b : Nat) : Decidable (isContinuation b) := by
  unfold isContinuation; infer_instance

/-- The byte sequences of the 2-, 3- and 4-byte rows of the table in spec
section 4.3, row by row. -/
def isTableSequence (q : List Nat) : Prop :=
  match q with
  | [b0, b1] => (0xC2 ≤ b0 ∧ b0 ≤ 0xDF) ∧ isContinuation b1
  | [b0, b1, b2] =>
    (b0 = 0xE0 ∧ (0xA0 ≤ b1 ∧ b1 ≤ 0xBF) ∧ isContinuation b2) ∨
    (((0xE1 ≤ b0 ∧ b0 ≤ 0xEC) ∨ b0 = 0xEE ∨ b0 = 0xEF) ∧
      isContinuation b1 ∧ isContinuation b2) ∨
    (b0 = 0xED ∧ (0x80 ≤ b1 ∧ b1 ≤ 0x9F) ∧ isContinuation b2)
  | [b0, b1, b2, b3] =>
    (b0 = 0xF0 ∧ (0x90 ≤ b1 ∧ b1 ≤ 0xBF) ∧ isContinuation b2 ∧ isContinuation b3) ∨
    ((0xF1 ≤ b0 ∧ b0 ≤ 0xF3) ∧ isContinuation b1 ∧ isContinuation b2 ∧
      isContinuation b3) ∨
    (b0 = 0xF4 ∧ (0x80 ≤ b1 ∧ b1 ≤ 0x8F) ∧ isContinuation b2 ∧ isContinuation b3)
  | _ => False

instance (q : List Nat) : Decidable (isTableSequence q) := by
  unfold isTableSequence; split <;> infer_instance

/-- An installation like `latin1Qt` whose sniffer always detects UTF-16. -/
def sniffingQt : Qt where
  codecForLocale := ⟨"ISO-8859-1"⟩
  codecForHtml := fun _ _ => ⟨"UTF-16"⟩
  codecForName := fun name =>
    if name = cstr "UTF-8" then some ⟨"UTF-8"⟩
    else if name = cstr "ISO-8859-1" then some ⟨"ISO-8859-1"⟩
    else none

/-- A document with an XML declaration naming UTF-8 before a meta tag naming
ISO-8859-1, both inside the head. -/
def docBothDeclared : List Nat :=
  cstr ("<?xml version=\"1.0\" encoding=\"UTF-8\"?><head>" ++
    "<meta content=\"text/html; charset=ISO-8859-1\"></head>")

/-- A document whose head declares a charset no registry here knows, followed by
a byte that is not UTF-8. -/
def docUnknownCharset : List Nat :=
  cstr "<head><meta content=\"text/html; charset=x-unknown\"></head>" ++ [0xE9]

/-! ## The loop with its exit state, and standard UTF-8 -/

/-- The loop of `IsValidUtf8` once more, reporting the value of `index` with
which it is left: `some index` when the loop ends (the function returns `true`),
`none` when a round returns `false`. -/
def utf8LoopExit (string : List Nat) (index : Nat) : Option Nat :=
  if index < string.length then
    let dword := dwordAt string index
    if isAscii (byteOf dword 0) then
      utf8LoopExit string (index + 1)
    else if isTwoByte (byteOf dword 0) (byteOf dword 1) then
      utf8LoopExit string (index + 2)
    else if isThreeByte (byteOf dword 0) (byteOf dword 1) (byteOf dword 2) then
      utf8LoopExit string (index + 3)
    else if isFourByte (byteOf dword 0) (byteOf dword 1) (byteOf dword 2) (byteOf dword 3) then
      utf8LoopExit string (index + 4)
    else
      none
  else
    some index
termination_by string.length - index
decreasing_by all_goals simp_wf; omega

/-- A Unicode scalar value: a code point up to U+10FFFF that is not a surrogate
(U+D800..U+DFFF). -/
def isScalarValue (cp : Nat) : Prop :=
  cp ≤ 0x10FFFF ∧ ¬ (0xD800 ≤ cp ∧ cp ≤ 0xDFFF)

instance (cp : Nat) : Decidable (isScalarValue cp) := by
  unfold isScalarValue; infer_instance

/-- The UTF-8 encoding of a scalar value in its shortest form, as the Unicode
standard distributes the bits: one byte below U+0080, two below U+0800, three
below U+10000, four from there on. -/
def utf8Encode (cp : Nat) : List Nat :=
  if cp < 0x80 then [cp]
  else if cp < 0x800 then [0xC0 + cp / 64, 0x80 + cp % 64]
  else if cp < 0x10000 then [0xE0 + cp / 4096, 0x80 + cp / 64 % 64, 0x80 + cp % 64]
  else [0xF0 + cp / 262144, 0x80 + cp / 4096 % 64, 0x80 + cp / 64 % 64, 0x80 + cp % 64]

/-- The concatenation of the encodings of a sequence of code points. -/
def utf8EncodeAll : List Nat → List Nat
  | [] => []
  | cp :: rest => utf8Encode cp ++ utf8EncodeAll rest

/-- Well-formed UTF-8 in the sense of the Unicode standard: the concatenation of
the shortest-form encodings of a sequence of scalar values. -/
def WellFormedUtf8 (bytes : List Nat) : Prop :=
  ∃ cps : List Nat, (∀ cp ∈ cps, isScalarValue cp) ∧ bytes = utf8EncodeAll cps

/-- The control bytes the validator leaves out of its one-byte branch:
`0x00..0x08`, `0x0B`, `0x0C`, `0x0E..0x1F` and `0x7F`. -/
def isExcludedControl (b : Nat) : Prop :=
  b ≤ 0x08 ∨ b = 0x0B ∨ b = 0x0C ∨ (0x0E ≤ b ∧ b ≤ 0x1F) ∨ b = 0x7F

instance (b : Nat) : Decidable (isExcludedControl b) := by
  unfold isExcludedControl; infer_instance

/-- The text from the first head-end marker on, when there is a marker. -/
def fromHeadEnd : List Char → Option (List Char)
  | [] => none
  | c :: cs => if isHeadEndAt (c :: cs) then some (c :: cs) else fromHeadEnd cs

/-- A document without a head-end marker that declares ISO-8859-1 in a meta
tag. -/
def docNoHeadEnd : List Nat :=
  cstr "<meta http-equiv=\"Content-Type\" content=\"text/html; charset=ISO-8859-1\"><p>"

/-- A document with a meta tag behind its head-end marker. -/
def docMetaInBody : List Char :=
  "<head></head><body><meta http-equiv=\"Content-Type\"></body>".toList

/-- A document with a meta tag inside its head and none behind it. -/
def docMetaInHead : List Char :=
  "<head><meta http-equiv=\"Content-Type\"></head><body></body>".toList

/-- A document whose head declares its charset with the value in double quotes,
as `charset="ISO-8859-1"`. -/
def docQuotedCharset : List Nat :=
  cstr "<head><meta charset=\"ISO-8859-1\"></head>"

/-- A document whose head declares its charset inside a quoted `content`
attribute, as `charset=ISO-8859-1"`. -/
def docContentCharset : List Nat :=
  cstr "<head><meta content=\"text/html; charset=ISO-8859-1\"></head>"

/-- The meta tag of the spec, the `http-equiv` attribute first. -/
def metaHttpEquivFirst : List Char :=
  "<meta http-equiv=\"Content-Type\" content=\"text/html; charset=ISO-8859-1\">".toList

/-- The same meta tag, the `content` attribute first. -/
def metaContentFirst : List Char :=
  "<meta content=\"text/html; charset=ISO-8859-1\" http-equiv=\"Content-Type\">".toList

/-- A document whose head names UTF-8 in the `type` attribute of a link before
the meta tag that declares ISO-8859-1. -/
def docEarlierCharset : List Nat :=
  cstr ("<head><link rel=\"stylesheet\" type=\"text/css; charset=UTF-8\" href=\"s.css\">" ++
    "<meta http-equiv=\"Content-Type\" content=\"text/html; charset=ISO-8859-1\"></head>")

/-- A document whose head holds a title and then the meta tag with the `content`
attribute first. -/
def docContentFirst : List Nat :=
  cstr ("<html><head><title>t</title>" ++
    "<meta content=\"text/html; charset=ISO-8859-1\" http-equiv=\"Content-Type\">" ++
    "</head><body></body></html>")

/-! ## Reading the window -/

theorem byteOf_dwordAt (s : List Nat) (i k : Nat) (hk : k < 4) :
    byteOf (dwordAt s i) k = s.getD (i + k) 0 := by
  unfold byteOf dwordAt mid leftJustified
  simp only [List.getD_eq_getElem?_getD]
  split
  · rename_i h
    rw [List.getElem?_append]
    split
    · rename_i h2
      rw [List.getElem?_take_of_lt hk, List.getElem?_drop]
    · rename_i h2
      simp only [List.length_take, List.length_drop] at h h2 ⊢
      have h3 : s[i + k]? = none := by
        apply List.getElem?_eq_none
        omega
      rw [h3]
      rw [List.getElem?_replicate]
      split <;> rfl
  · rw [List.getElem?_take_of_lt hk, List.getElem?_drop]

/-- One round of the loop, in terms of the bytes of the buffer itself. -/
theorem utf8Loop_eq (s : List Nat) (i : Nat) :
    utf8Loop s i =
      if i < s.length then
        if isAscii (s.getD i 0) then utf8Loop s (i + 1)
        else if isTwoByte (s.getD i 0) (s.getD (i + 1) 0) then utf8Loop s (i + 2)
        else if isThreeByte (s.getD i 0) (s.getD (i + 1) 0) (s.getD (i + 2) 0) then
          utf8Loop s (i + 3)
        else if isFourByte (s.getD i 0) (s.getD (i + 1) 0) (s.getD (i + 2) 0)
            (s.getD (i + 3) 0) then
          utf8Loop s (i + 4)
        else false
      else true := by
  rw [utf8Loop]
  simp only [byteOf_dwordAt s i 0 (by omega), byteOf_dwordAt s i 1 (by omega),
    byteOf_dwordAt s i 2 (by omega), byteOf_dwordAt s i 3 (by omega), Nat.add_zero]

theorem getD_append_shift (p s : List Nat) (j : Nat) :
    (p ++ s).getD (p.length + j) 0 = s.getD j 0 := by
  simp only [List.getD_eq_getElem?_getD]
  rw [List.getElem?_append_right (by omega)]
  congr 2
  omega

theorem getD_append_of_ne_zero (p s : List Nat) (j : Nat) (h : p.getD j 0 ≠ 0) :
    (p ++ s).getD j 0 = p.getD j 0 := by
  have hj : j < p.length := by
    by_contra hc
    apply h
    simp only [List.getD_eq_getElem?_getD]
    rw [List.getElem?_eq_none (by omega)]
    rfl
  simp only [List.getD_eq_getElem?_getD]
  rw [List.getElem?_append_left hj]

theorem lt_length_of_getD_ne_zero (p : List Nat) (j : Nat) (h : p.getD j 0 ≠ 0) :
    j < p.length := by
  by_contra hc
  apply h
  simp only [List.getD_eq_getElem?_getD]
  rw [List.getElem?_eq_none (by omega)]
  rfl

/-- The loop on `p ++ s` from inside `s` is the loop on `s`. -/
theorem utf8Loop_append_shift (p s : List Nat) :
    ∀ (n i : Nat), s.length - i ≤ n → utf8Loop (p ++ s) (p.length + i) = utf8Loop s i := by
  intro n
  induction n with
  | zero =>
    intro i hn
    rw [utf8Loop_eq, utf8Loop_eq s]
    have h1 : ¬ (p.length + i < (p ++ s).length) := by
      rw [List.length_append]; omega
    have h2 : ¬ (i < s.length) := by omega
    rw [if_neg h1, if_neg h2]
  | succ n ih =>
    intro i hn
    rw [utf8Loop_eq, utf8Loop_eq s]
    have e0 := getD_append_shift p s i
    have e1 := getD_append_shift p s (i + 1)
    have e2 := getD_append_shift p s (i + 2)
    have e3 := getD_append_shift p s (i + 3)
    simp only [← Nat.add_assoc] at e1 e2 e3
    rw [e0, e1, e2, e3]
    by_cases hlt : i < s.length
    · have h1 : p.length + i < (p ++ s).length := by
        rw [List.length_append]; omega
      rw [if_pos h1, if_pos hlt]
      have r1 := ih (i + 1) (by omega)
      have r2 := ih (i + 2) (by omega)
      have r3 := ih (i + 3) (by omega)
      have r4 := ih (i + 4) (by omega)
      simp only [← Nat.add_assoc] at r1 r2 r3 r4
      rw [r1, r2, r3, r4]
    · have h1 : ¬ (p.length + i < (p ++ s).length) := by
        rw [List.length_append]; omega
      rw [if_neg h1, if_neg hlt]

/-- A buffer the loop accepts from `i` is scanned the same way when bytes follow
it: no accepted sequence reaches into the zero padding. -/
theorem utf8Loop_append_of_accept (p s : List Nat) :
    ∀ (n i : Nat), p.length - i ≤ n → i ≤ p.length → utf8Loop p i = true →
      utf8Loop (p ++ s) i = utf8Loop s 0 := by
  intro n
  induction n with
  | zero =>
    intro i hn hi _
    have : i = p.length + 0 := by omega
    rw [this]
    exact utf8Loop_append_shift p s s.length 0 (by omega)
  | succ n ih =>
    intro i hn hi h
    by_cases hlt : i < p.length
    · rw [utf8Loop_eq] at h
      rw [utf8Loop_eq (p ++ s)]
      have hlt2 : i < (p ++ s).length := by
        rw [List.length_append]; omega
      rw [if_pos hlt] at h
      rw [if_pos hlt2]
      have e0 : (p ++ s).getD i 0 = p.getD i 0 := by
        simp only [List.getD_eq_getElem?_getD]
        rw [List.getElem?_append_left hlt]
      rw [e0]
      by_cases c1 : isAscii (p.getD i 0)
      · rw [if_pos c1] at h ⊢
        exact ih (i + 1) (by omega) (by omega) h
      · rw [if_neg c1] at h ⊢
        by_cases c2 : isTwoByte (p.getD i 0) (p.getD (i + 1) 0)
        · rw [if_pos c2] at h
          have n1 : p.getD (i + 1) 0 ≠ 0 := by
            unfold isTwoByte at c2; omega
          rw [getD_append_of_ne_zero p s _ n1, if_pos c2]
          have l1 := lt_length_of_getD_ne_zero p _ n1
          exact ih (i + 2) (by omega) (by omega) h
        · rw [if_neg c2] at h
          by_cases c3 : isThreeByte (p.getD i 0) (p.getD (i + 1) 0) (p.getD (i + 2) 0)
          · rw [if_pos c3] at h
            have n1 : p.getD (i + 1) 0 ≠ 0 := by
              unfold isThreeByte at c3; omega
            have n2 : p.getD (i + 2) 0 ≠ 0 := by
              unfold isThreeByte at c3; omega
            rw [getD_append_of_ne_zero p s _ n1, getD_append_of_ne_zero p s _ n2,
              if_neg c2, if_pos c3]
            have l2 := lt_length_of_getD_ne_zero p _ n2
            exact ih (i + 3) (by omega) (by omega) h
          · rw [if_neg c3] at h
            by_cases c4 : isFourByte (p.getD i 0) (p.getD (i + 1) 0) (p.getD (i + 2) 0)
                (p.getD (i + 3) 0)
            · rw [if_pos c4] at h
              have n1 : p.getD (i + 1) 0 ≠ 0 := by
                unfold isFourByte at c4; omega
              have n2 : p.getD (i + 2) 0 ≠ 0 := by
                unfold isFourByte at c4; omega
              have n3 : p.getD (i + 3) 0 ≠ 0 := by
                unfold isFourByte at c4; omega
              rw [getD_append_of_ne_zero p s _ n1, getD_append_of_ne_zero p s _ n2,
                getD_append_of_ne_zero p s _ n3, if_neg c2, if_neg c3, if_pos c4]
              have l3 := lt_length_of_getD_ne_zero p _ n3
              exact ih (i + 4) (by omega) (by omega) h
            · rw [if_neg c4] at h
              exact absurd h (by decide)
    · have : i = p.length + 0 := by omega
      rw [this]
      exact utf8Loop_append_shift p s s.length 0 (by omega)

/-- After an accepted buffer the validator decides on what follows. -/
theorem IsValidUtf8_append_of_accept (p s : List Nat) (hp : IsValidUtf8 (some p) = true) :
    IsValidUtf8 (some (p ++ s)) = IsValidUtf8 (some s) := by
  unfold IsValidUtf8 at *
  exact utf8Loop_append_of_accept p s p.length 0 (by omega) (by omega) hp
/-- The loop from index `k` is the loop from 0 on the bytes from `k` on. -/
theorem utf8Loop_drop (l : List Nat) (k : Nat) : utf8Loop l k = utf8Loop (l.drop k) 0 := by
  by_cases hk : k ≤ l.length
  · have h := utf8Loop_append_shift (l.take k) (l.drop k) (l.drop k).length 0 (by omega)
    rw [List.take_append_drop, List.length_take, Nat.min_eq_left hk] at h
    exact h
  · rw [utf8Loop_eq, if_neg (by omega), List.drop_eq_nil_of_le (by omega), utf8Loop_eq]
    rfl

/-- One round of the loop on a non-empty buffer, in terms of its tail. -/
theorem utf8Loop_cons (b0 : Nat) (s : List Nat) :
    utf8Loop (b0 :: s) 0 =
      if isAscii b0 then utf8Loop s 0
      else if isTwoByte b0 (s.getD 0 0) then utf8Loop (s.drop 1) 0
      else if isThreeByte b0 (s.getD 0 0) (s.getD 1 0) then utf8Loop (s.drop 2) 0
      else if isFourByte b0 (s.getD 0 0) (s.getD 1 0) (s.getD 2 0) then utf8Loop (s.drop 3) 0
      else false := by
  rw [utf8Loop_eq]
  rw [utf8Loop_drop _ (0 + 1), utf8Loop_drop _ (0 + 2), utf8Loop_drop _ (0 + 3),
    utf8Loop_drop _ (0 + 4)]
  simp

theorem utf8Loop_nil : utf8Loop [] 0 = true := by
  rw [utf8Loop_eq]; rfl
theorem utf8Loop_of_all_ascii (s : List Nat)
    (h : ∀ b ∈ s, b = 0x09 ∨ b = 0x0A ∨ b = 0x0D ∨ (0x20 ≤ b ∧ b ≤ 0x7E)) :
    utf8Loop s 0 = true := by
  induction s with
  | nil => exact utf8Loop_nil
  | cons b t ih =>
    rw [utf8Loop_cons, if_pos (show isAscii b from h b (List.mem_cons_self b t))]
    exact ih (fun x hx => h x (List.mem_cons_of_mem b hx))

theorem utf8Loop_of_tableSequence (q : List Nat) (h : isTableSequence q) :
    utf8Loop q 0 = true := by
  rcases q with _ | ⟨b0, _ | ⟨b1, _ | ⟨b2, _ | ⟨b3, _ | ⟨b4, t⟩⟩⟩⟩⟩ <;>
    simp only [isTableSequence, isContinuation] at h
  · rw [utf8Loop_cons]
    have c1 : ¬ isAscii b0 := by unfold isAscii; omega
    have c2 : isTwoByte b0 b1 := by unfold isTwoByte; omega
    simp [c1, c2, utf8Loop_nil]
  · rw [utf8Loop_cons]
    have c1 : ¬ isAscii b0 := by unfold isAscii; omega
    have c2 : ¬ isTwoByte b0 b1 := by unfold isTwoByte; omega
    have c3 : isThreeByte b0 b1 b2 := by unfold isThreeByte; omega
    simp [c1, c2, c3, utf8Loop_nil]
  · rw [utf8Loop_cons]
    have c1 : ¬ isAscii b0 := by unfold isAscii; omega
    have c2 : ¬ isTwoByte b0 b1 := by unfold isTwoByte; omega
    have c3 : ¬ isThreeByte b0 b1 b2 := by unfold isThreeByte; omega
    have c4 : isFourByte b0 b1 b2 b3 := by unfold isFourByte; omega
    simp [c1, c2, c3, c4, utf8Loop_nil]

/-- A buffer whose lead byte matches no branch, given the bytes that follow it,
is rejected. -/
theorem utf8Loop_cons_reject (b0 : Nat) (s : List Nat) (c1 : ¬ isAscii b0)
    (c2 : ¬ isTwoByte b0 (s.getD 0 0)) (c3 : ¬ isThreeByte b0 (s.getD 0 0) (s.getD 1 0))
    (c4 : ¬ isFourByte b0 (s.getD 0 0) (s.getD 1 0) (s.getD 2 0)) :
    utf8Loop (b0 :: s) 0 = false := by
  rw [utf8Loop_cons, if_neg c1, if_neg c2, if_neg c3, if_neg c4]

theorem utf8Loop_truncated (q : List Nat) (h : isTableSequence q) (s : List Nat)
    (hs : ¬ isContinuation (s.getD 0 0)) :
    utf8Loop (q.dropLast ++ s) 0 = false := by
  rcases q with _ | ⟨b0, _ | ⟨b1, _ | ⟨b2, _ | ⟨b3, _ | ⟨b4, t⟩⟩⟩⟩⟩ <;>
    simp only [isTableSequence, isContinuation] at h
  · show utf8Loop (b0 :: s) 0 = false
    unfold isContinuation at hs
    apply utf8Loop_cons_reject
    · unfold isAscii; omega
    · unfold isTwoByte; omega
    · unfold isThreeByte; omega
    · unfold isFourByte; omega
  · show utf8Loop (b0 :: b1 :: s) 0 = false
    unfold isContinuation at hs
    apply utf8Loop_cons_reject <;>
      try simp only [List.getD_cons_zero, List.getD_cons_succ]
    · unfold isAscii; omega
    · unfold isTwoByte; omega
    · unfold isThreeByte; omega
    · unfold isFourByte; omega
  · show utf8Loop (b0 :: b1 :: b2 :: s) 0 = false
    unfold isContinuation at hs
    apply utf8Loop_cons_reject <;>
      try simp only [List.getD_cons_zero, List.getD_cons_succ]
    · unfold isAscii; omega
    · unfold isTwoByte; omega
    · unfold isThreeByte; omega
    · unfold isFourByte; omega
/-! ## The validator: the claims -/

/-- C1: `IsValidUtf8` returns true on every non-null buffer all of whose bytes
are `0x09`, `0x0A`, `0x0D` or lie in `0x20..0x7E`. -/
theorem IsValidUtf8_of_ascii (bytes : List Nat)
    (h : ∀ b ∈ bytes, b = 0x09 ∨ b = 0x0A ∨ b = 0x0D ∨ (0x20 ≤ b ∧ b ≤ 0x7E)) :
    IsValidUtf8 (some bytes) = true :=
  utf8Loop_of_all_ascii bytes h

theorem IsValidUtf8_of_ascii_witness :
    (∀ b ∈ [0x09, 0x41, 0x7E], b = 0x09 ∨ b = 0x0A ∨ b = 0x0D ∨ (0x20 ≤ b ∧ b ≤ 0x7E)) ∧
    IsValidUtf8 (some [0x09, 0x41, 0x7E]) = true :=
  ⟨by decide, IsValidUtf8_of_ascii [0x09, 0x41, 0x7E] (by decide)⟩

/-- C2: every byte sequence `q` of a 2-, 3- or 4-byte row of the table in spec
section 4.3 is accepted as a buffer of its own, and at the end of `p ++ q` for
every accepted buffer `p`. -/
theorem IsValidUtf8_tableSequence (q : List Nat) (h : isTableSequence q) :
    IsValidUtf8 (some q) = true ∧
    ∀ p : List Nat, IsValidUtf8 (some p) = true → IsValidUtf8 (some (p ++ q)) = true := by
  have hq : IsValidUtf8 (some q) = true := utf8Loop_of_tableSequence q h
  refine ⟨hq, ?_⟩
  intro p hp
  rw [IsValidUtf8_append_of_accept p q hp]
  exact hq

theorem IsValidUtf8_tableSequence_witness :
    isTableSequence [0xE2, 0x82, 0xAC] ∧
    IsValidUtf8 (some [0xE2, 0x82, 0xAC]) = true ∧
    ∀ p : List Nat, IsValidUtf8 (some p) = true →
      IsValidUtf8 (some (p ++ [0xE2, 0x82, 0xAC])) = true :=
  ⟨by decide, IsValidUtf8_tableSequence [0xE2, 0x82, 0xAC] (by decide)⟩

/-- C3: a sequence of a 2-, 3- or 4-byte row of the table with its last
continuation byte removed is rejected after every accepted buffer `p`: at the
end of the buffer, and before every suffix whose first byte is not in
`0x80..0xBF`. -/
theorem IsValidUtf8_truncated (q : List Nat) (h : isTableSequence q) (p : List Nat)
    (hp : IsValidUtf8 (some p) = true) :
    IsValidUtf8 (some (p ++ q.dropLast)) = false ∧
    ∀ (c : Nat) (t : List Nat), ¬ (0x80 ≤ c ∧ c ≤ 0xBF) →
      IsValidUtf8 (some (p ++ q.dropLast ++ c :: t)) = false := by
  constructor
  · rw [IsValidUtf8_append_of_accept p _ hp]
    have := utf8Loop_truncated q h [] (by unfold isContinuation; simp)
    rw [List.append_nil] at this
    exact this
  · intro c t hc
    rw [List.append_assoc, IsValidUtf8_append_of_accept p _ hp]
    exact utf8Loop_truncated q h (c :: t) (by unfold isContinuation; simpa using hc)

theorem IsValidUtf8_truncated_witness :
    isTableSequence [0xF0, 0x9F, 0x98, 0x80] ∧ IsValidUtf8 (some [0x41]) = true ∧
    (IsValidUtf8 (some ([0x41] ++ [0xF0, 0x9F, 0x98, 0x80].dropLast)) = false ∧
      ∀ (c : Nat) (t : List Nat), ¬ (0x80 ≤ c ∧ c ≤ 0xBF) →
        IsValidUtf8 (some ([0x41] ++ [0xF0, 0x9F, 0x98, 0x80].dropLast ++ c :: t)) = false) :=
  ⟨by decide, utf8Loop_of_all_ascii [0x41] (by decide),
    IsValidUtf8_truncated [0xF0, 0x9F, 0x98, 0x80] (by decide) [0x41]
      (utf8Loop_of_all_ascii [0x41] (by decide))⟩

/-- C4: a continuation byte `c` in `0x80..0xBF` where a lead byte is due makes
the buffer invalid: after every accepted buffer `p` (the empty one included) and
before every suffix `s`. -/
theorem IsValidUtf8_lone_continuation (p : List Nat) (hp : IsValidUtf8 (some p) = true)
    (c : Nat) (hc : 0x80 ≤ c ∧ c ≤ 0xBF) (s : List Nat) :
    IsValidUtf8 (some (p ++ [c] ++ s)) = false := by
  rw [List.append_assoc, IsValidUtf8_append_of_accept p _ hp]
  show utf8Loop (c :: s) 0 = false
  apply utf8Loop_cons_reject
  · unfold isAscii; omega
  · unfold isTwoByte; omega
  · unfold isThreeByte; omega
  · unfold isFourByte; omega

theorem IsValidUtf8_lone_continuation_witness :
    IsValidUtf8 (some []) = true ∧ (0x80 ≤ 0x80 ∧ 0x80 ≤ 0xBF) ∧
    IsValidUtf8 (some ([] ++ [0x80] ++ [0x41])) = false :=
  ⟨utf8Loop_nil, by decide,
    IsValidUtf8_lone_continuation [] utf8Loop_nil 0x80 (by decide) [0x41]⟩

/-- C5: surrogate-range sequences are rejected: `0xED` followed by a byte in
`0xA0..0xBF`, after every accepted buffer and before every suffix. -/
theorem IsValidUtf8_surrogate (p : List Nat) (hp : IsValidUtf8 (some p) = true)
    (b1 : Nat) (hb : 0xA0 ≤ b1 ∧ b1 ≤ 0xBF) (s : List Nat) :
    IsValidUtf8 (some (p ++ [0xED, b1] ++ s)) = false := by
  rw [List.append_assoc, IsValidUtf8_append_of_accept p _ hp]
  show utf8Loop (0xED :: b1 :: s) 0 = false
  apply utf8Loop_cons_reject <;> try simp only [List.getD_cons_zero, List.getD_cons_succ]
  · unfold isAscii; omega
  · unfold isTwoByte; omega
  · unfold isThreeByte; omega
  · unfold isFourByte; omega

theorem IsValidUtf8_surrogate_witness :
    IsValidUtf8 (some [0x41]) = true ∧ (0xA0 ≤ 0xA0 ∧ 0xA0 ≤ 0xBF) ∧
    IsValidUtf8 (some ([0x41] ++ [0xED, 0xA0] ++ [0x80])) = false :=
  ⟨utf8Loop_of_all_ascii [0x41] (by decide), by decide,
    IsValidUtf8_surrogate [0x41] (utf8Loop_of_all_ascii [0x41] (by decide)) 0xA0
      (by decide) [0x80]⟩

/-- C6: overlong encodings are rejected after every accepted buffer and before
every suffix: `0xC0 0x80`, and any `l b1` with `l` one of `0xC0`, `0xC1`, or
`l = 0xE0` and `b1` in `0x80..0x9F`, or `l = 0xF0` and `b1` in `0x80..0x8F`. -/
theorem IsValidUtf8_overlong (p : List Nat) (hp : IsValidUtf8 (some p) = true)
    (s : List Nat) :
    IsValidUtf8 (some (p ++ [0xC0, 0x80] ++ s)) = false ∧
    ∀ l b1 : Nat,
      ((l = 0xC0 ∨ l = 0xC1) ∨ (l = 0xE0 ∧ 0x80 ≤ b1 ∧ b1 ≤ 0x9F) ∨
        (l = 0xF0 ∧ 0x80 ≤ b1 ∧ b1 ≤ 0x8F)) →
      IsValidUtf8 (some (p ++ [l, b1] ++ s)) = false := by
  have gen : ∀ l b1 : Nat,
      ((l = 0xC0 ∨ l = 0xC1) ∨ (l = 0xE0 ∧ 0x80 ≤ b1 ∧ b1 ≤ 0x9F) ∨
        (l = 0xF0 ∧ 0x80 ≤ b1 ∧ b1 ≤ 0x8F)) →
      IsValidUtf8 (some (p ++ [l, b1] ++ s)) = false := by
    intro l b1 h
    rw [List.append_assoc, IsValidUtf8_append_of_accept p _ hp]
    show utf8Loop (l :: b1 :: s) 0 = false
    apply utf8Loop_cons_reject <;> try simp only [List.getD_cons_zero, List.getD_cons_succ]
    · unfold isAscii; omega
    · unfold isTwoByte; omega
    · unfold isThreeByte; omega
    · unfold isFourByte; omega
  exact ⟨gen 0xC0 0x80 (by decide), gen⟩

theorem IsValidUtf8_overlong_witness :
    IsValidUtf8 (some [0x41]) = true ∧
    (IsValidUtf8 (some ([0x41] ++ [0xC0, 0x80] ++ [0x42])) = false ∧
      ∀ l b1 : Nat,
        ((l = 0xC0 ∨ l = 0xC1) ∨ (l = 0xE0 ∧ 0x80 ≤ b1 ∧ b1 ≤ 0x9F) ∨
          (l = 0xF0 ∧ 0x80 ≤ b1 ∧ b1 ≤ 0x8F)) →
        IsValidUtf8 (some ([0x41] ++ [l, b1] ++ [0x42])) = false) :=
  ⟨utf8Loop_of_all_ascii [0x41] (by decide),
    IsValidUtf8_overlong [0x41] (utf8Loop_of_all_ascii [0x41] (by decide)) [0x42]⟩

/-- C7: `IsValidUtf8` returns false on the null buffer and true on the empty,
non-null buffer. -/
theorem IsValidUtf8_null_and_empty :
    IsValidUtf8 none = false ∧ IsValidUtf8 (some []) = true :=
  ⟨rfl, utf8Loop_nil⟩
/-! ## The declaration normalizer -/

theorem replaceMeta_of_no_match (t : List Char) (h : hasMetaMatch t = false) :
    replaceMeta 0 t = t := by
  induction t with
  | nil => rfl
  | cons c cs ih =>
    simp only [hasMetaMatch, Bool.or_eq_false_iff] at h
    have hm : matchMetaAt (c :: cs) = none := by
      cases hc : matchMetaAt (c :: cs) with
      | none => rfl
      | some m => rw [hc] at h; simp at h
    simp only [replaceMeta, hm]
    rw [ih h.2]

theorem splitAtLast_eq_some (needle : List Char) :
    ∀ (l a b : List Char), splitAtLast needle l = some (a, b) → l = a ++ needle ++ b := by
  intro l
  induction l with
  | nil => intro a b h; simp [splitAtLast] at h
  | cons c cs ih =>
    intro a b h
    unfold splitAtLast at h
    cases hs : splitAtLast needle cs with
    | some r =>
      obtain ⟨a1, b1⟩ := r
      rw [hs] at h
      simp only [Option.some.injEq, Prod.mk.injEq] at h
      rw [← h.1, ← h.2, ih a1 b1 hs]
      simp
    | none =>
      rw [hs] at h
      simp only at h
      split at h
      · rename_i hp
        simp only [Option.some.injEq, Prod.mk.injEq] at h
        rw [← h.1, ← h.2]
        rw [List.isPrefixOf_iff_prefix, List.prefix_iff_eq_append] at hp
        simpa using hp.symm
      · simp at h

theorem splitAtLast_isSome_of_occurs (needle : List Char) (hn : needle ≠ []) (b : List Char) :
    ∀ a : List Char, (splitAtLast needle (a ++ needle ++ b)).isSome = true := by
  intro a
  induction a with
  | nil =>
    obtain ⟨n, ns, rfl⟩ := List.exists_cons_of_ne_nil hn
    show (splitAtLast (n :: ns) (n :: (ns ++ b))).isSome = true
    unfold splitAtLast
    cases hs : splitAtLast (n :: ns) (ns ++ b) with
    | some r => rfl
    | none =>
      have hp : (n :: ns).isPrefixOf (n :: (ns ++ b)) = true := by
        rw [List.isPrefixOf_iff_prefix]
        exact ⟨b, rfl⟩
      simp only [hp, if_true, Option.isSome_some]
  | cons x xs ih =>
    show (splitAtLast needle (x :: (xs ++ needle ++ b))).isSome = true
    unfold splitAtLast
    cases hs : splitAtLast needle (xs ++ needle ++ b) with
    | some r => rfl
    | none => rw [hs] at ih; simp at ih

theorem takeWhile_append_stop (p : Char → Bool) (x : Char) (hx : p x = false) (r : List Char) :
    ∀ a : List Char, (∀ y ∈ a, p y = true) → (a ++ x :: r).takeWhile p = a := by
  intro a
  induction a with
  | nil => intro _; simp [List.takeWhile, hx]
  | cons y ys ih =>
    intro h
    have hy : p y = true := h y (List.mem_cons_self y ys)
    rw [List.cons_append, List.takeWhile_cons_of_pos hy,
      ih (fun z hz => h z (List.mem_cons_of_mem y hz))]

/-- The shape of a text the pattern matches at its start. -/
theorem matchMetaAt_shape (t : List Char) (m : MetaMatch) (h : matchMetaAt t = some m) :
    ∃ ws body rest, t = '<' :: (ws ++ "meta".toList ++ body ++ '>' :: rest) ∧
      (∀ x ∈ ws, isSpace x = true) ∧ (∀ x ∈ body, x ≠ '>') ∧
      body = m.cap1 ++ httpEquiv ++ m.cap2 := by
  unfold matchMetaAt at h
  cases t with
  | nil => simp at h
  | cons c t1 =>
    simp only at h
    split at h
    · rename_i hc
      split at h
      · rename_i hmeta
        split at h
        · rename_i hlen
          cases hs : splitAtLast httpEquiv
              ((List.drop 4 (List.dropWhile isSpace t1)).takeWhile (fun x => x != '>')) with
          | none => rw [hs] at h; simp at h
          | some r =>
            obtain ⟨a, b⟩ := r
            rw [hs] at h
            simp only [Option.some.injEq] at h
            have hbody := splitAtLast_eq_some httpEquiv _ a b hs
            rw [List.isPrefixOf_iff_prefix, List.prefix_iff_eq_append] at hmeta
            have hne : (List.drop 4 (List.dropWhile isSpace t1)).dropWhile
                (fun x => x != '>') ≠ [] := by
              intro he
              have := List.takeWhile_append_dropWhile (fun x => x != '>')
                (List.drop 4 (List.dropWhile isSpace t1))
              rw [he, List.append_nil] at this
              rw [this] at hlen
              omega
            obtain ⟨y, rest, hyr⟩ := List.exists_cons_of_ne_nil hne
            have hy : y = '>' := by
              have := List.head_dropWhile_not (fun x => x != '>')
                (List.drop 4 (List.dropWhile isSpace t1)) hne
              simp only [hyr, List.head_cons] at this
              simpa using this
            refine ⟨t1.takeWhile isSpace,
              (List.drop 4 (List.dropWhile isSpace t1)).takeWhile (fun x => x != '>'),
              rest, ?_, ?_, ?_, ?_⟩
            · subst hy
              rw [hc]
              congr 1
              rw [← hyr, List.append_assoc, List.append_assoc,
                List.takeWhile_append_dropWhile]
              have hm2 : "meta".toList ++ List.drop 4 (List.dropWhile isSpace t1) =
                  List.dropWhile isSpace t1 := hmeta
              rw [hm2, List.takeWhile_append_dropWhile]
            · intro x hx
              exact (List.mem_takeWhile_imp hx)
            · intro x hx
              have := List.mem_takeWhile_imp hx
              simpa using this
            · rw [← h]
              exact hbody
        · simp at h
      · simp at h
    · simp at h

theorem matchMetaAt_of_shape (body rest : List Char) (hb : ∀ x ∈ body, x ≠ '>')
    (hs : (splitAtLast httpEquiv body).isSome = true) :
    (matchMetaAt ('<' :: 'm' :: 'e' :: 't' :: 'a' :: (body ++ '>' :: rest))).isSome = true := by
  have htw : (body ++ '>' :: rest).takeWhile (fun x => x != '>') = body :=
    takeWhile_append_stop (fun x => x != '>') '>' (by decide) rest body
      (fun y hy => by simpa using hb y hy)
  obtain ⟨r, hr⟩ := Option.isSome_iff_exists.mp hs
  have e1 : List.takeWhile isSpace ('m' :: 'e' :: 't' :: 'a' :: (body ++ '>' :: rest)) = [] :=
    List.takeWhile_cons_of_neg (by decide)
  have e2 : List.dropWhile isSpace ('m' :: 'e' :: 't' :: 'a' :: (body ++ '>' :: rest)) =
      'm' :: 'e' :: 't' :: 'a' :: (body ++ '>' :: rest) :=
    List.dropWhile_cons_of_neg (by decide)
  have e3 : "meta".toList.isPrefixOf ('m' :: 'e' :: 't' :: 'a' :: (body ++ '>' :: rest)) = true := by
    rw [List.isPrefixOf_iff_prefix]
    exact ⟨body ++ '>' :: rest, rfl⟩
  unfold matchMetaAt
  simp only [if_true, e1, e2, e3, List.drop_succ_cons, List.drop_zero, htw, hr,
    List.length_append, List.length_cons]
  rw [if_pos (by omega)]
  rfl

/-- The text a replacement writes, followed by anything, matches the pattern
again. -/
theorem matchMetaAt_metaReplacement (m : MetaMatch) (h1 : ∀ x ∈ m.cap1, x ≠ '>')
    (h2 : ∀ x ∈ m.cap2, x ≠ '>') (rest : List Char) :
    (matchMetaAt (metaReplacement m ++ rest)).isSome = true := by
  have hA : "<meta http-equiv=\"Content-Type\" ".toList =
      '<' :: 'm' :: 'e' :: 't' :: 'a' :: ([' '] ++ httpEquiv ++ [' ']) := by decide
  have e : metaReplacement m ++ rest =
      '<' :: 'm' :: 'e' :: 't' :: 'a' ::
        (([' '] ++ httpEquiv ++ ([' '] ++ m.cap1 ++ [' '] ++ m.cap2)) ++ '>' :: rest) := by
    unfold metaReplacement
    rw [hA]
    simp only [List.append_assoc, List.cons_append, List.nil_append]
  rw [e]
  apply matchMetaAt_of_shape
  · intro x hx
    simp only [List.mem_append, List.mem_singleton] at hx
    rcases hx with (hx | hx) | ((hx | hx) | hx) | hx
    · rw [hx]; decide
    · intro hc
      rw [hc] at hx
      exact absurd hx (by decide)
    · rw [hx]; decide
    · exact h1 x hx
    · rw [hx]; decide
    · exact h2 x hx
  · exact splitAtLast_isSome_of_occurs httpEquiv (by decide) _ [' ']

theorem hasMetaMatch_of_matchMetaAt (l : List Char) (h : (matchMetaAt l).isSome = true) :
    hasMetaMatch l = true := by
  cases l with
  | nil => simp [matchMetaAt] at h
  | cons c cs => simp only [hasMetaMatch, h, Bool.true_or]

/-- A pass over a text with a match leaves a text with a match. -/
theorem hasMetaMatch_normalize (t : List Char) (h : hasMetaMatch t = true) :
    hasMetaMatch (normalize t) = true := by
  unfold normalize
  induction t with
  | nil => simp [hasMetaMatch] at h
  | cons c cs ih =>
    cases hm : matchMetaAt (c :: cs) with
    | some m =>
      obtain ⟨ws, body, rest, _, _, hbody, hcaps⟩ := matchMetaAt_shape _ m hm
      simp only [replaceMeta, hm]
      apply hasMetaMatch_of_matchMetaAt
      apply matchMetaAt_metaReplacement
      · intro x hx
        exact hbody x (by rw [hcaps]; simp [hx])
      · intro x hx
        exact hbody x (by rw [hcaps]; simp [hx])
    | none =>
      simp only [hasMetaMatch, hm, Option.isSome_none, Bool.false_or] at h
      simp only [replaceMeta, hm, hasMetaMatch, ih h, Bool.or_true]

/-- A pass over a text with a match changes the text. -/
theorem normalize_ne_self (t : List Char) (h : hasMetaMatch t = true) :
    normalize t ≠ t := by
  unfold normalize
  induction t with
  | nil => simp [hasMetaMatch] at h
  | cons c cs ih =>
    cases hm : matchMetaAt (c :: cs) with
    | some m =>
      obtain ⟨ws, body, rest, hshape, hws, hbody, hcaps⟩ := matchMetaAt_shape _ m hm
      simp only [replaceMeta, hm]
      have hA : "<meta http-equiv=\"Content-Type\" ".toList =
          '<' :: 'm' :: 'e' :: 't' :: 'a' :: ([' '] ++ httpEquiv ++ [' ']) := by decide
      intro heq
      rw [hshape] at heq
      unfold metaReplacement at heq
      rw [hA] at heq
      cases ws with
      | nil =>
        have hM : "meta".toList = ['m', 'e', 't', 'a'] := by decide
        rw [hM] at heq
        simp only [List.append_assoc, List.cons_append, List.nil_append, List.cons.injEq,
          true_and] at heq
        have l1 := congrArg (List.takeWhile (fun x => x != '>')) heq
        have hcaps1 : ∀ x ∈ m.cap1, x ≠ '>' := fun x hx =>
          hbody x (by rw [hcaps]; simp [hx])
        have hcaps2 : ∀ x ∈ m.cap2, x ≠ '>' := fun x hx =>
          hbody x (by rw [hcaps]; simp [hx])
        have r1 : List.takeWhile (fun x => x != '>') (body ++ '>' :: rest) = body :=
          takeWhile_append_stop (fun x => x != '>') '>' (by decide) rest body
            (fun y hy => by simpa using hbody y hy)
        have e2 : ' ' :: (httpEquiv ++ ' ' :: (m.cap1 ++ ' ' :: (m.cap2 ++
            '>' :: replaceMeta (m.length - 1) cs))) =
            ([' '] ++ httpEquiv ++ ([' '] ++ m.cap1 ++ [' '] ++ m.cap2)) ++
              '>' :: replaceMeta (m.length - 1) cs := by
          simp only [List.append_assoc, List.cons_append, List.nil_append]
        have r2 : List.takeWhile (fun x => x != '>')
            (([' '] ++ httpEquiv ++ ([' '] ++ m.cap1 ++ [' '] ++ m.cap2)) ++
              '>' :: replaceMeta (m.length - 1) cs) =
            [' '] ++ httpEquiv ++ ([' '] ++ m.cap1 ++ [' '] ++ m.cap2) := by
          apply takeWhile_append_stop (fun x => x != '>') '>' (by decide)
          intro x hx
          simp only [List.mem_append, List.mem_singleton] at hx
          have : x ≠ '>' := by
            rcases hx with (hx | hx) | ((hx | hx) | hx) | hx
            · rw [hx]; decide
            · intro hc
              rw [hc] at hx
              exact absurd hx (by decide)
            · rw [hx]; decide
            · exact hcaps1 x hx
            · rw [hx]; decide
            · exact hcaps2 x hx
          simpa using this
        rw [e2, r2, r1] at l1
        have l2 := congrArg List.length l1
        rw [hcaps] at l2
        simp only [List.length_append, List.length_cons, List.length_nil] at l2
        omega
      | cons w ws1 =>
        simp only [List.cons_append, List.cons.injEq, true_and] at heq
        have hw := hws w (List.mem_cons_self w ws1)
        rw [← heq.1] at hw
        exact absurd hw (by decide)
    | none =>
      simp only [hasMetaMatch, hm, Option.isSome_none, Bool.false_or] at h
      simp only [replaceMeta, hm]
      intro heq
      exact ih h (List.cons.inj heq).2

/-- C8 (counterexample): the canonical tag is not left alone; each pass over it
puts three more spaces after the `http-equiv` attribute. -/
theorem normalize_not_idempotent :
    normalize
        "<meta http-equiv=\"Content-Type\" content=\"text/html; charset=ISO-8859-1\">".toList =
      "<meta http-equiv=\"Content-Type\"    content=\"text/html; charset=ISO-8859-1\">".toList ∧
    normalize (normalize
        "<meta http-equiv=\"Content-Type\" content=\"text/html; charset=ISO-8859-1\">".toList) =
      "<meta http-equiv=\"Content-Type\"       content=\"text/html; charset=ISO-8859-1\">".toList ∧
    normalize (normalize
        "<meta http-equiv=\"Content-Type\" content=\"text/html; charset=ISO-8859-1\">".toList) ≠
      normalize
        "<meta http-equiv=\"Content-Type\" content=\"text/html; charset=ISO-8859-1\">".toList := by
  decide

/-- C8 (amended): the normalizer is idempotent exactly on the texts in which the
pattern matches nowhere, and those it leaves unchanged. -/
theorem normalize_idempotent_iff (t : List Char) :
    (normalize (normalize t) = normalize t ↔ hasMetaMatch t = false) ∧
    (hasMetaMatch t = false → normalize t = t) := by
  refine ⟨⟨?_, ?_⟩, replaceMeta_of_no_match t⟩
  · intro h
    cases hm : hasMetaMatch t with
    | false => rfl
    | true => exact absurd h (normalize_ne_self _ (hasMetaMatch_normalize t hm))
  · intro h
    have h1 : normalize t = t := replaceMeta_of_no_match t h
    rw [h1, h1]

/-! ## The resolver -/

/-- C9 (counterexample): with a Latin-1 locale and a sniffer that detects
nothing, the empty non-null buffer resolves to UTF-8, not to the locale
default. -/
theorem GetCodecForHTML_empty_not_locale :
    GetCodecForHTML latin1Qt (some []) = some ⟨"UTF-8"⟩ ∧
    GetCodecForHTML latin1Qt (some []) ≠ some latin1Qt.codecForLocale := by
  have h : GetCodecForHTML latin1Qt (some []) = some ⟨"UTF-8"⟩ := by
    simp [GetCodecForHTML, fromAscii, normalize, replaceMeta, toAscii, latin1Qt,
      declaredCodec, indexOfHeadEnd, IsValidUtf8, utf8Loop_nil]
  rw [h]
  exact ⟨rfl, by decide⟩

/-- C9 (amended): with a sniffer that returns the locale default, the empty
non-null buffer resolves to the codec the registry gives for `UTF-8`, and the
null buffer resolves to the locale default. -/
theorem GetCodecForHTML_empty (qt : Qt)
    (h : (qt.codecForHtml [] qt.codecForLocale).name = qt.codecForLocale.name) :
    GetCodecForHTML qt (some []) = qt.codecForName (cstr "UTF-8") ∧
    GetCodecForHTML qt none = some qt.codecForLocale := by
  constructor
  · simp [GetCodecForHTML, fromAscii, normalize, replaceMeta, toAscii, h,
      declaredCodec, indexOfHeadEnd, IsValidUtf8, utf8Loop_nil]
  · simp [GetCodecForHTML, fromAscii, normalize, replaceMeta, toAscii, h,
      declaredCodec, indexOfHeadEnd, IsValidUtf8]

theorem GetCodecForHTML_empty_witness :
    (latin1Qt.codecForHtml [] latin1Qt.codecForLocale).name = latin1Qt.codecForLocale.name ∧
    (GetCodecForHTML latin1Qt (some []) = latin1Qt.codecForName (cstr "UTF-8") ∧
      GetCodecForHTML latin1Qt none = some latin1Qt.codecForLocale) :=
  ⟨rfl, GetCodecForHTML_empty latin1Qt rfl⟩

/-- C10: when the sniffer returns the locale default, and there is no head-end
marker or neither the charset nor the encoding capture of the head resolves in
the registry, a buffer that `IsValidUtf8` accepts resolves to the codec the
registry gives for `UTF-8`. -/
theorem GetCodecForHTML_utf8 (qt : Qt) (raw_text : Option (List Nat))
    (hsniff : (qt.codecForHtml (toAscii (normalize (fromAscii raw_text)))
      qt.codecForLocale).name = qt.codecForLocale.name)
    (hdecl : indexOfHeadEnd (normalize (fromAscii raw_text)) = none ∨
      ∃ head_end, indexOfHeadEnd (normalize (fromAscii raw_text)) = some head_end ∧
        qt.codecForName
          (toAscii (charsetCap (Substring 0 head_end (normalize (fromAscii raw_text))))) = none ∧
        qt.codecForName
          (toAscii (encodingCap (Substring 0 head_end (normalize (fromAscii raw_text))))) = none)
    (hvalid : IsValidUtf8 raw_text = true) :
    GetCodecForHTML qt raw_text = qt.codecForName (cstr "UTF-8") := by
  have hd : declaredCodec qt (normalize (fromAscii raw_text)) = none := by
    unfold declaredCodec
    rcases hdecl with h | ⟨k, hk, h1, h2⟩
    · rw [h]
    · rw [hk]
      simp only [h1, h2]
  unfold GetCodecForHTML
  simp only [hsniff, hd, hvalid, if_true]

theorem GetCodecForHTML_utf8_witness :
    (latin1Qt.codecForHtml
        (toAscii (normalize (fromAscii (some (cstr "<head></head>" ++ [0xC3, 0xA9])))))
        latin1Qt.codecForLocale).name = latin1Qt.codecForLocale.name ∧
    IsValidUtf8 (some (cstr "<head></head>" ++ [0xC3, 0xA9])) = true ∧
    GetCodecForHTML latin1Qt (some (cstr "<head></head>" ++ [0xC3, 0xA9])) =
      latin1Qt.codecForName (cstr "UTF-8") :=
  have hvalid : IsValidUtf8 (some (cstr "<head></head>" ++ [0xC3, 0xA9])) = true := by
    rw [IsValidUtf8_append_of_accept _ _ (utf8Loop_of_all_ascii _ (by decide))]
    exact utf8Loop_of_tableSequence _ (by decide)
  ⟨rfl, hvalid,
    GetCodecForHTML_utf8 latin1Qt (some (cstr "<head></head>" ++ [0xC3, 0xA9])) rfl
      (Or.inr ⟨6, by decide, by decide, by decide⟩) hvalid⟩

/-- C11: when the sniffer returns the locale default, and there is no head-end
marker or neither the charset nor the encoding capture of the head resolves in
the registry, a buffer that `IsValidUtf8` rejects resolves to the locale default
codec. -/
theorem GetCodecForHTML_locale (qt : Qt) (raw_text : Option (List Nat))
    (hsniff : (qt.codecForHtml (toAscii (normalize (fromAscii raw_text)))
      qt.codecForLocale).name = qt.codecForLocale.name)
    (hdecl : indexOfHeadEnd (normalize (fromAscii raw_text)) = none ∨
      ∃ head_end, indexOfHeadEnd (normalize (fromAscii raw_text)) = some head_end ∧
        qt.codecForName
          (toAscii (charsetCap (Substring 0 head_end (normalize (fromAscii raw_text))))) = none ∧
        qt.codecForName
          (toAscii (encodingCap (Substring 0 head_end (normalize (fromAscii raw_text))))) = none)
    (hinvalid : IsValidUtf8 raw_text = false) :
    GetCodecForHTML qt raw_text = some qt.codecForLocale := by
  have hd : declaredCodec qt (normalize (fromAscii raw_text)) = none := by
    unfold declaredCodec
    rcases hdecl with h | ⟨k, hk, h1, h2⟩
    · rw [h]
    · rw [hk]
      simp only [h1, h2]
  unfold GetCodecForHTML
  simp only [hsniff, hd, hinvalid, if_true]
  rfl

theorem GetCodecForHTML_locale_witness :
    (latin1Qt.codecForHtml
        (toAscii (normalize (fromAscii (some (cstr "<head></head>" ++ [0xE9])))))
        latin1Qt.codecForLocale).name = latin1Qt.codecForLocale.name ∧
    IsValidUtf8 (some (cstr "<head></head>" ++ [0xE9])) = false ∧
    GetCodecForHTML latin1Qt (some (cstr "<head></head>" ++ [0xE9])) =
      some latin1Qt.codecForLocale :=
  have hinvalid : IsValidUtf8 (some (cstr "<head></head>" ++ [0xE9])) = false := by
    rw [IsValidUtf8_append_of_accept _ _ (utf8Loop_of_all_ascii _ (by decide))]
    exact utf8Loop_cons_reject _ _ (by decide) (by decide) (by decide) (by decide)
  ⟨rfl, hinvalid,
    GetCodecForHTML_locale latin1Qt (some (cstr "<head></head>" ++ [0xE9])) rfl
      (Or.inr ⟨6, by decide, by decide, by decide⟩) hinvalid⟩

/-- C13: when the name of the sniffer's result differs from the name of the
locale default, `GetCodecForHTML` returns the sniffer's result, whatever the
text declares and whether or not the buffer is valid UTF-8. -/
theorem GetCodecForHTML_sniffed (qt : Qt) (raw_text : Option (List Nat))
    (hsniff : (qt.codecForHtml (toAscii (normalize (fromAscii raw_text)))
      qt.codecForLocale).name ≠ qt.codecForLocale.name) :
    GetCodecForHTML qt raw_text =
      some (qt.codecForHtml (toAscii (normalize (fromAscii raw_text))) qt.codecForLocale) := by
  unfold GetCodecForHTML
  simp only [hsniff, if_false]

theorem GetCodecForHTML_sniffed_witness :
    (sniffingQt.codecForHtml
        (toAscii (normalize (fromAscii (some
          (cstr "<head><meta content=\"text/html; charset=UTF-8\"></head>")))))
        sniffingQt.codecForLocale).name ≠ sniffingQt.codecForLocale.name ∧
    GetCodecForHTML sniffingQt
        (some (cstr "<head><meta content=\"text/html; charset=UTF-8\"></head>")) =
      some ⟨"UTF-16"⟩ :=
  ⟨by decide, GetCodecForHTML_sniffed sniffingQt _ (by decide)⟩

/-- C14: when the sniffer returns the locale default and the head-end marker is
present, a charset capture that resolves in the registry decides the result,
whether or not the encoding capture resolves too; when the charset capture does
not resolve and the encoding capture does, the encoding capture decides. -/
theorem GetCodecForHTML_charset_first (qt : Qt) (raw_text : Option (List Nat))
    (head_end : Nat)
    (hsniff : (qt.codecForHtml (toAscii (normalize (fromAscii raw_text)))
      qt.codecForLocale).name = qt.codecForLocale.name)
    (hhead : indexOfHeadEnd (normalize (fromAscii raw_text)) = some head_end) :
    (∀ codec, qt.codecForName
        (toAscii (charsetCap (Substring 0 head_end (normalize (fromAscii raw_text))))) =
          some codec →
      GetCodecForHTML qt raw_text = some codec) ∧
    (∀ codec, qt.codecForName
        (toAscii (charsetCap (Substring 0 head_end (normalize (fromAscii raw_text))))) = none →
      qt.codecForName
        (toAscii (encodingCap (Substring 0 head_end (normalize (fromAscii raw_text))))) =
          some codec →
      GetCodecForHTML qt raw_text = some codec) := by
  constructor
  · intro codec hc
    unfold GetCodecForHTML declaredCodec
    simp only [hsniff, hhead, hc, if_true]
  · intro codec hc he
    unfold GetCodecForHTML declaredCodec
    simp only [hsniff, hhead, hc, he, if_true]

/-- C16: when the sniffer returns the locale default and the charset capture of
the head does not resolve in the registry, `GetCodecForHTML` still returns a
codec: the one of the encoding capture if that resolves, otherwise the UTF-8
codec `utf8` of the registry if `IsValidUtf8` accepts the raw bytes, otherwise
the locale default. -/
theorem GetCodecForHTML_unrecognised_charset (qt : Qt) (raw_text : Option (List Nat))
    (head_end : Nat) (utf8 : QTextCodec)
    (hsniff : (qt.codecForHtml (toAscii (normalize (fromAscii raw_text)))
      qt.codecForLocale).name = qt.codecForLocale.name)
    (hhead : indexOfHeadEnd (normalize (fromAscii raw_text)) = some head_end)
    (hcharset : qt.codecForName
      (toAscii (charsetCap (Substring 0 head_end (normalize (fromAscii raw_text))))) = none)
    (hutf8 : qt.codecForName (cstr "UTF-8") = some utf8) :
    GetCodecForHTML qt raw_text =
      some (match qt.codecForName
          (toAscii (encodingCap (Substring 0 head_end (normalize (fromAscii raw_text))))) with
        | some codec => codec
        | none => if IsValidUtf8 raw_text = true then utf8 else qt.codecForLocale) := by
  unfold GetCodecForHTML declaredCodec
  simp only [hsniff, hhead, hcharset, if_true]
  cases he : qt.codecForName
      (toAscii (encodingCap (Substring 0 head_end (normalize (fromAscii raw_text))))) with
  | some codec => rfl
  | none =>
    simp only [hutf8]
    cases IsValidUtf8 raw_text <;> simp

theorem GetCodecForHTML_charset_first_witness :
    (latin1Qt.codecForHtml (toAscii (normalize (fromAscii (some docBothDeclared))))
      latin1Qt.codecForLocale).name = latin1Qt.codecForLocale.name ∧
    indexOfHeadEnd (normalize (fromAscii (some docBothDeclared))) = some 90 ∧
    latin1Qt.codecForName (toAscii (encodingCap
      (Substring 0 90 (normalize (fromAscii (some docBothDeclared)))))) = some ⟨"UTF-8"⟩ ∧
    latin1Qt.codecForName (toAscii (charsetCap
      (Substring 0 90 (normalize (fromAscii (some docBothDeclared)))))) =
        some ⟨"ISO-8859-1"⟩ ∧
    GetCodecForHTML latin1Qt (some docBothDeclared) = some ⟨"ISO-8859-1"⟩ :=
  ⟨rfl, by decide, by decide, by decide,
    (GetCodecForHTML_charset_first latin1Qt (some docBothDeclared) 90 rfl (by decide)).1
      ⟨"ISO-8859-1"⟩ (by decide)⟩

theorem GetCodecForHTML_unrecognised_charset_witness :
    (latin1Qt.codecForHtml (toAscii (normalize (fromAscii (some docUnknownCharset))))
      latin1Qt.codecForLocale).name = latin1Qt.codecForLocale.name ∧
    indexOfHeadEnd (normalize (fromAscii (some docUnknownCharset))) = some 51 ∧
    charsetCap (Substring 0 51 (normalize (fromAscii (some docUnknownCharset)))) =
      "x-unknown".toList ∧
    latin1Qt.codecForName (toAscii (charsetCap
      (Substring 0 51 (normalize (fromAscii (some docUnknownCharset)))))) = none ∧
    latin1Qt.codecForName (cstr "UTF-8") = some ⟨"UTF-8"⟩ ∧
    GetCodecForHTML latin1Qt (some docUnknownCharset) =
      some (match latin1Qt.codecForName (toAscii (encodingCap
          (Substring 0 51 (normalize (fromAscii (some docUnknownCharset)))))) with
        | some codec => codec
        | none =>
          if IsValidUtf8 (some docUnknownCharset) = true then ⟨"UTF-8"⟩
          else latin1Qt.codecForLocale) :=
  ⟨rfl, by decide, by decide, by decide, by decide,
    GetCodecForHTML_unrecognised_charset latin1Qt (some docUnknownCharset) 51 ⟨"UTF-8"⟩ rfl
      (by decide) (by decide) (by decide)⟩

/-! ## The exit state of the loop -/

theorem utf8LoopExit_eq (s : List Nat) (i : Nat) :
    utf8LoopExit s i =
      if i < s.length then
        if isAscii (s.getD i 0) then utf8LoopExit s (i + 1)
        else if isTwoByte (s.getD i 0) (s.getD (i + 1) 0) then utf8LoopExit s (i + 2)
        else if isThreeByte (s.getD i 0) (s.getD (i + 1) 0) (s.getD (i + 2) 0) then
          utf8LoopExit s (i + 3)
        else if isFourByte (s.getD i 0) (s.getD (i + 1) 0) (s.getD (i + 2) 0)
            (s.getD (i + 3) 0) then
          utf8LoopExit s (i + 4)
        else none
      else some i := by
  rw [utf8LoopExit]
  simp only [byteOf_dwordAt s i 0 (by omega), byteOf_dwordAt s i 1 (by omega),
    byteOf_dwordAt s i 2 (by omega), byteOf_dwordAt s i 3 (by omega), Nat.add_zero]

/-- The loop returns `true` exactly when it is left through its condition. -/
theorem utf8Loop_eq_isSome_exit (s : List Nat) :
    ∀ (n i : Nat), s.length - i ≤ n → utf8Loop s i = (utf8LoopExit s i).isSome := by
  intro n
  induction n with
  | zero =>
    intro i hn
    rw [utf8Loop_eq, utf8LoopExit_eq, if_neg (by omega), if_neg (by omega)]
    rfl
  | succ n ih =>
    intro i hn
    rw [utf8Loop_eq, utf8LoopExit_eq]
    rw [ih (i + 1) (by omega), ih (i + 2) (by omega), ih (i + 3) (by omega),
      ih (i + 4) (by omega)]
    repeat' split
    all_goals rfl

/-- An accepting scan leaves the loop with `index` equal to the size of the
buffer: every matched sequence lies inside the buffer. -/
theorem utf8LoopExit_eq_length (s : List Nat) :
    ∀ (n i k : Nat), s.length - i ≤ n → i ≤ s.length → utf8LoopExit s i = some k →
      k = s.length := by
  intro n
  induction n with
  | zero =>
    intro i k hn hi h
    rw [utf8LoopExit_eq, if_neg (by omega)] at h
    simp only [Option.some.injEq] at h
    omega
  | succ n ih =>
    intro i k hn hi h
    rw [utf8LoopExit_eq] at h
    by_cases hlt : i < s.length
    · rw [if_pos hlt] at h
      by_cases c1 : isAscii (s.getD i 0)
      · rw [if_pos c1] at h
        exact ih (i + 1) k (by omega) (by omega) h
      · rw [if_neg c1] at h
        by_cases c2 : isTwoByte (s.getD i 0) (s.getD (i + 1) 0)
        · rw [if_pos c2] at h
          have l1 := lt_length_of_getD_ne_zero s (i + 1) (by unfold isTwoByte at c2; omega)
          exact ih (i + 2) k (by omega) (by omega) h
        · rw [if_neg c2] at h
          by_cases c3 : isThreeByte (s.getD i 0) (s.getD (i + 1) 0) (s.getD (i + 2) 0)
          · rw [if_pos c3] at h
            have l2 := lt_length_of_getD_ne_zero s (i + 2)
              (by unfold isThreeByte at c3; omega)
            exact ih (i + 3) k (by omega) (by omega) h
          · rw [if_neg c3] at h
            by_cases c4 : isFourByte (s.getD i 0) (s.getD (i + 1) 0) (s.getD (i + 2) 0)
                (s.getD (i + 3) 0)
            · rw [if_pos c4] at h
              have l3 := lt_length_of_getD_ne_zero s (i + 3)
                (by unfold isFourByte at c4; omega)
              exact ih (i + 4) k (by omega) (by omega) h
            · rw [if_neg c4] at h
              exact absurd h (by simp)
    · rw [if_neg hlt] at h
      simp only [Option.some.injEq] at h
      omega

/-- C20: validity is compositional. After an accepted buffer `a` the validator
decides on what follows, so two accepted buffers concatenate to an accepted one;
and the accepting scan of `a` leaves the loop with `index` at the size of `a`,
no matched sequence reaching into the zero padding. -/
theorem IsValidUtf8_compositional (a b : List Nat) (ha : IsValidUtf8 (some a) = true) :
    IsValidUtf8 (some (a ++ b)) = IsValidUtf8 (some b) ∧
    (IsValidUtf8 (some b) = true → IsValidUtf8 (some (a ++ b)) = true) ∧
    utf8LoopExit a 0 = some a.length := by
  have h1 : IsValidUtf8 (some (a ++ b)) = IsValidUtf8 (some b) :=
    utf8Loop_append_of_accept a b a.length 0 (by omega) (by omega) ha
  refine ⟨h1, fun hb => by rw [h1]; exact hb, ?_⟩
  have h2 : (utf8LoopExit a 0).isSome = true := by
    rw [← utf8Loop_eq_isSome_exit a a.length 0 (by omega)]
    exact ha
  obtain ⟨k, hk⟩ := Option.isSome_iff_exists.mp h2
  rw [hk, utf8LoopExit_eq_length a a.length 0 k (by omega) (by omega) hk]

theorem IsValidUtf8_compositional_witness :
    IsValidUtf8 (some [0x41, 0xC3, 0xA9]) = true ∧
    (IsValidUtf8 (some ([0x41, 0xC3, 0xA9] ++ [0xE2, 0x82])) =
        IsValidUtf8 (some [0xE2, 0x82]) ∧
      (IsValidUtf8 (some [0xE2, 0x82]) = true →
        IsValidUtf8 (some ([0x41, 0xC3, 0xA9] ++ [0xE2, 0x82])) = true) ∧
      utf8LoopExit [0x41, 0xC3, 0xA9] 0 = some [0x41, 0xC3, 0xA9].length) :=
  have ha : IsValidUtf8 (some [0x41, 0xC3, 0xA9]) = true := by
    simp [IsValidUtf8, utf8Loop_eq, isAscii, isTwoByte, isThreeByte, isFourByte]
  ⟨ha, IsValidUtf8_compositional [0x41, 0xC3, 0xA9] [0xE2, 0x82] ha⟩

/-! ## The validator and standard UTF-8 -/

/-- The encoding of a scalar value from U+0080 on is a sequence of the table. -/
theorem isTableSequence_utf8Encode (cp : Nat) (h : isScalarValue cp) (h80 : 0x80 ≤ cp) :
    isTableSequence (utf8Encode cp) := by
  unfold isScalarValue at h
  unfold utf8Encode
  rw [if_neg (by omega)]
  split
  · simp only [isTableSequence, isContinuation]
    omega
  · split
    · simp only [isTableSequence, isContinuation]
      omega
    · simp only [isTableSequence, isContinuation]
      omega

/-- Every sequence of the table is the encoding of a scalar value. -/
theorem exists_scalar_of_isTableSequence (q : List Nat) (h : isTableSequence q) :
    ∃ cp, isScalarValue cp ∧ utf8Encode cp = q := by
  rcases q with _ | ⟨b0, _ | ⟨b1, _ | ⟨b2, _ | ⟨b3, _ | ⟨b4, t⟩⟩⟩⟩⟩ <;>
    simp only [isTableSequence, isContinuation] at h
  · refine ⟨(b0 - 0xC0) * 64 + (b1 - 0x80), ?_, ?_⟩
    · unfold isScalarValue; omega
    · unfold utf8Encode
      rw [if_neg (by omega), if_pos (by omega)]
      simp only [List.cons.injEq, and_true]
      omega
  · refine ⟨(b0 - 0xE0) * 4096 + (b1 - 0x80) * 64 + (b2 - 0x80), ?_, ?_⟩
    · unfold isScalarValue; omega
    · unfold utf8Encode
      rw [if_neg (by omega), if_neg (by omega), if_pos (by omega)]
      simp only [List.cons.injEq, and_true]
      omega
  · refine ⟨(b0 - 0xF0) * 262144 + (b1 - 0x80) * 4096 + (b2 - 0x80) * 64 + (b3 - 0x80),
      ?_, ?_⟩
    · unfold isScalarValue; omega
    · unfold utf8Encode
      rw [if_neg (by omega), if_neg (by omega), if_neg (by omega)]
      simp only [List.cons.injEq, and_true]
      omega

theorem utf8Loop_utf8EncodeAll (cps : List Nat) (hs : ∀ cp ∈ cps, isScalarValue cp)
    (hx : ∀ x ∈ utf8EncodeAll cps, ¬ isExcludedControl x) :
    utf8Loop (utf8EncodeAll cps) 0 = true := by
  induction cps with
  | nil => exact utf8Loop_nil
  | cons cp rest ih =>
    have hcp := hs cp (List.mem_cons_self cp rest)
    have hrest : utf8Loop (utf8EncodeAll rest) 0 = true :=
      ih (fun c hc => hs c (List.mem_cons_of_mem cp hc))
        (fun x hm => hx x (by simp only [utf8EncodeAll, List.mem_append]; exact Or.inr hm))
    have hone : utf8Loop (utf8Encode cp) 0 = true := by
      by_cases h80 : cp < 0x80
      · have he : utf8Encode cp = [cp] := by unfold utf8Encode; rw [if_pos h80]
        have hn : ¬ isExcludedControl cp :=
          hx cp (by simp only [utf8EncodeAll, List.mem_append, he, List.mem_singleton,
            true_or])
        rw [he]
        apply utf8Loop_of_all_ascii
        intro b hb
        rw [List.mem_singleton] at hb
        unfold isExcludedControl at hn
        omega
      · exact utf8Loop_of_tableSequence _ (isTableSequence_utf8Encode cp hcp (by omega))
    show utf8Loop (utf8Encode cp ++ utf8EncodeAll rest) 0 = true
    rw [utf8Loop_append_of_accept _ _ _ 0 (Nat.le_refl _) (Nat.zero_le _) hone]
    exact hrest

theorem wellFormed_of_utf8Loop :
    ∀ (n : Nat) (b : List Nat), b.length ≤ n → utf8Loop b 0 = true →
      ∃ cps : List Nat, (∀ cp ∈ cps, isScalarValue cp) ∧ b = utf8EncodeAll cps ∧
        ∀ x ∈ b, ¬ isExcludedControl x := by
  intro n
  induction n with
  | zero =>
    intro b hb _
    have : b = [] := List.eq_nil_of_length_eq_zero (by omega)
    subst this
    exact ⟨[], by simp, rfl, by simp⟩
  | succ n ih =>
    intro b hb h
    rcases b with _ | ⟨b0, s⟩
    · exact ⟨[], by simp, rfl, by simp⟩
    rw [utf8Loop_cons] at h
    simp only [List.length_cons] at hb
    by_cases c1 : isAscii b0
    · rw [if_pos c1] at h
      obtain ⟨cps, hs, he, hx⟩ := ih s (by omega) h
      unfold isAscii at c1
      refine ⟨b0 :: cps, ?_, ?_, ?_⟩
      · intro cp hcp
        rcases List.mem_cons.mp hcp with rfl | hcp
        · unfold isScalarValue; omega
        · exact hs cp hcp
      · have : utf8Encode b0 = [b0] := by unfold utf8Encode; rw [if_pos (by omega)]
        simp only [utf8EncodeAll, this, ← he, List.singleton_append]
      · intro x hm
        rcases List.mem_cons.mp hm with rfl | hm
        · unfold isExcludedControl; omega
        · exact hx x hm
    rw [if_neg c1] at h
    by_cases c2 : isTwoByte b0 (s.getD 0 0)
    · rw [if_pos c2] at h
      rcases s with _ | ⟨b1, s1⟩
      · unfold isTwoByte at c2; simp at c2
      simp only [List.getD_cons_zero] at c2
      simp only [List.drop_succ_cons, List.drop_zero] at h
      simp only [List.length_cons] at hb
      obtain ⟨cps, hs, he, hx⟩ := ih s1 (by omega) h
      have ht : isTableSequence [b0, b1] := by
        unfold isTwoByte at c2
        simp only [isTableSequence, isContinuation]
        omega
      obtain ⟨cp, hcp, hcq⟩ := exists_scalar_of_isTableSequence _ ht
      refine ⟨cp :: cps, ?_, ?_, ?_⟩
      · intro c hc
        rcases List.mem_cons.mp hc with rfl | hc
        · exact hcp
        · exact hs c hc
      · simp only [utf8EncodeAll, hcq, ← he, List.cons_append, List.nil_append]
      · intro x hm
        unfold isTwoByte at c2
        simp only [List.mem_cons] at hm
        rcases hm with rfl | rfl | hm
        · unfold isExcludedControl; omega
        · unfold isExcludedControl; omega
        · exact hx x hm
    rw [if_neg c2] at h
    by_cases c3 : isThreeByte b0 (s.getD 0 0) (s.getD 1 0)
    · rw [if_pos c3] at h
      rcases s with _ | ⟨b1, _ | ⟨b2, s2⟩⟩
      · unfold isThreeByte at c3; simp at c3
      · unfold isThreeByte at c3; simp at c3
      simp only [List.getD_cons_zero, List.getD_cons_succ] at c3
      simp only [List.drop_succ_cons, List.drop_zero] at h
      simp only [List.length_cons] at hb
      obtain ⟨cps, hs, he, hx⟩ := ih s2 (by omega) h
      have ht : isTableSequence [b0, b1, b2] := by
        unfold isThreeByte at c3
        simp only [isTableSequence, isContinuation]
        omega
      obtain ⟨cp, hcp, hcq⟩ := exists_scalar_of_isTableSequence _ ht
      refine ⟨cp :: cps, ?_, ?_, ?_⟩
      · intro c hc
        rcases List.mem_cons.mp hc with rfl | hc
        · exact hcp
        · exact hs c hc
      · simp only [utf8EncodeAll, hcq, ← he, List.cons_append, List.nil_append]
      · intro x hm
        unfold isThreeByte at c3
        simp only [List.mem_cons] at hm
        rcases hm with rfl | rfl | rfl | hm
        · unfold isExcludedControl; omega
        · unfold isExcludedControl; omega
        · unfold isExcludedControl; omega
        · exact hx x hm
    rw [if_neg c3] at h
    by_cases c4 : isFourByte b0 (s.getD 0 0) (s.getD 1 0) (s.getD 2 0)
    · rw [if_pos c4] at h
      rcases s with _ | ⟨b1, _ | ⟨b2, _ | ⟨b3, s3⟩⟩⟩
      · unfold isFourByte at c4; simp at c4
      · unfold isFourByte at c4; simp at c4
      · unfold isFourByte at c4; simp at c4
      simp only [List.getD_cons_zero, List.getD_cons_succ] at c4
      simp only [List.drop_succ_cons, List.drop_zero] at h
      simp only [List.length_cons] at hb
      obtain ⟨cps, hs, he, hx⟩ := ih s3 (by omega) h
      have ht : isTableSequence [b0, b1, b2, b3] := by
        unfold isFourByte at c4
        simp only [isTableSequence, isContinuation]
        omega
      obtain ⟨cp, hcp, hcq⟩ := exists_scalar_of_isTableSequence _ ht
      refine ⟨cp :: cps, ?_, ?_, ?_⟩
      · intro c hc
        rcases List.mem_cons.mp hc with rfl | hc
        · exact hcp
        · exact hs c hc
      · simp only [utf8EncodeAll, hcq, ← he, List.cons_append, List.nil_append]
      · intro x hm
        unfold isFourByte at c4
        simp only [List.mem_cons] at hm
        rcases hm with rfl | rfl | rfl | rfl | hm
        · unfold isExcludedControl; omega
        · unfold isExcludedControl; omega
        · unfold isExcludedControl; omega
        · unfold isExcludedControl; omega
        · exact hx x hm
    rw [if_neg c4] at h
    exact absurd h (by decide)

/-- C19: `IsValidUtf8` accepts a non-null buffer exactly when the buffer is
well-formed UTF-8 in the sense of the Unicode standard and holds none of the
control bytes `0x00..0x08`, `0x0B`, `0x0C`, `0x0E..0x1F`, `0x7F`; the subset is
strict, the one-byte buffer `0x00` being well-formed and rejected. -/
theorem IsValidUtf8_iff_wellFormed :
    (∀ b : List Nat, IsValidUtf8 (some b) = true ↔
      (WellFormedUtf8 b ∧ ∀ x ∈ b, ¬ isExcludedControl x)) ∧
    (WellFormedUtf8 [0x00] ∧ IsValidUtf8 (some [0x00]) = false) := by
  constructor
  · intro b
    constructor
    · intro h
      obtain ⟨cps, hs, he, hx⟩ := wellFormed_of_utf8Loop b.length b (Nat.le_refl _) h
      exact ⟨⟨cps, hs, he⟩, hx⟩
    · rintro ⟨⟨cps, hs, he⟩, hx⟩
      subst he
      exact utf8Loop_utf8EncodeAll cps hs hx
  · constructor
    · exact ⟨[0], by decide, by decide⟩
    · exact utf8Loop_cons_reject _ _ (by decide) (by decide) (by decide) (by decide)

/-! ## Head-end markers -/

/-- Lower-casing leaves every character that is not an upper-case letter, so a
character that lower-cases to a non-letter is that character. -/
theorem eq_of_toLower_eq (c d : Char) (hd : ¬ (97 ≤ d.toNat ∧ d.toNat ≤ 122))
    (h : c.toLower = d) : c = d := by
  unfold Char.toLower at h
  simp only at h
  split at h
  · rename_i hr
    exfalso
    apply hd
    rw [← h]
    generalize c.toNat = n at hr
    obtain ⟨h1, h2⟩ := hr
    have h1 : 65 ≤ n := h1
    interval_cases n <;> decide
  · exact h

theorem headEnd_toList : "</head>".toList = ['<', '/', 'h', 'e', 'a', 'd', '>'] := by
  decide

/-- The seven characters a head-end marker starts a text with. -/
theorem isHeadEndAt_iff (t : List Char) :
    isHeadEndAt t = true ↔
      ∃ c0 c1 c2 c3 c4 c5 c6 rest, t = c0 :: c1 :: c2 :: c3 :: c4 :: c5 :: c6 :: rest ∧
        c0 = '<' ∧ c1 = '/' ∧ c2.toLower = 'h' ∧ c3.toLower = 'e' ∧ c4.toLower = 'a' ∧
        c5.toLower = 'd' ∧ c6 = '>' := by
  unfold isHeadEndAt
  rw [headEnd_toList]
  constructor
  · intro h
    rcases t with _ | ⟨c0, _ | ⟨c1, _ | ⟨c2, _ | ⟨c3, _ | ⟨c4, _ | ⟨c5, _ | ⟨c6, rest⟩⟩⟩⟩⟩⟩⟩ <;>
      simp at h
    obtain ⟨h0, h1, h2, h3, h4, h5, h6⟩ := h
    exact ⟨c0, c1, c2, c3, c4, c5, c6, rest, rfl,
      eq_of_toLower_eq _ _ (by decide) h0, eq_of_toLower_eq _ _ (by decide) h1,
      h2, h3, h4, h5, eq_of_toLower_eq _ _ (by decide) h6⟩
  · rintro ⟨c0, c1, c2, c3, c4, c5, c6, rest, rfl, rfl, rfl, h2, h3, h4, h5, rfl⟩
    simp [h2, h3, h4, h5]

theorem isHeadEndAt_cons_of_ne (c : Char) (t : List Char) (h : c ≠ '<') :
    isHeadEndAt (c :: t) = false := by
  cases hh : isHeadEndAt (c :: t) with
  | false => rfl
  | true =>
    obtain ⟨c0, c1, c2, c3, c4, c5, c6, rest, he, h0, _⟩ := (isHeadEndAt_iff _).mp hh
    simp only [List.cons.injEq] at he
    exact absurd (he.1.trans h0) h

theorem isHeadEndAt_cons_cons_of_ne (c d : Char) (t : List Char) (h : d ≠ '/') :
    isHeadEndAt (c :: d :: t) = false := by
  cases hh : isHeadEndAt (c :: d :: t) with
  | false => rfl
  | true =>
    obtain ⟨c0, c1, c2, c3, c4, c5, c6, rest, he, _, h1, _⟩ := (isHeadEndAt_iff _).mp hh
    simp only [List.cons.injEq] at he
    exact absurd (he.2.1.trans h1) h

/-- The marker test reads seven characters only. -/
theorem isHeadEndAt_take (t : List Char) : isHeadEndAt (t.take 7) = isHeadEndAt t := by
  unfold isHeadEndAt
  rw [List.take_take]
  rfl

/-- In a text without `>` followed by `>`, a marker at the start takes the
whole text. -/
theorem isHeadEndAt_append_gt (q z : List Char) (hq : ∀ y ∈ q, y ≠ '>') :
    isHeadEndAt (q ++ '>' :: z) = (decide (q.length = 6) && isHeadEndAt (q ++ ['>'])) := by
  by_cases hl : q.length = 6
  · have e : (q ++ '>' :: z).take 7 = (q ++ ['>']).take 7 := by
      rw [List.take_append_eq_append_take, List.take_append_eq_append_take]
      simp [hl]
    rw [← isHeadEndAt_take, e, isHeadEndAt_take]
    simp [hl]
  · simp only [hl, decide_False, Bool.false_and]
    cases hh : isHeadEndAt (q ++ '>' :: z) with
    | false => rfl
    | true =>
      exfalso
      obtain ⟨c0, c1, c2, c3, c4, c5, c6, rest, he, h0, h1, h2, h3, h4, h5, h6⟩ :=
        (isHeadEndAt_iff _).mp hh
      subst h0 h1 h6
      rcases q with _ | ⟨y0, _ | ⟨y1, _ | ⟨y2, _ | ⟨y3, _ | ⟨y4, _ | ⟨y5, _ | ⟨y6, q7⟩⟩⟩⟩⟩⟩⟩
      · simp at he
      · simp only [List.cons_append, List.nil_append, List.cons.injEq] at he
        exact absurd he.2.1 (by decide)
      · simp only [List.cons_append, List.nil_append, List.cons.injEq] at he
        rw [← he.2.2.1] at h2
        exact absurd h2 (by decide)
      · simp only [List.cons_append, List.nil_append, List.cons.injEq] at he
        rw [← he.2.2.2.1] at h3
        exact absurd h3 (by decide)
      · simp only [List.cons_append, List.nil_append, List.cons.injEq] at he
        rw [← he.2.2.2.2.1] at h4
        exact absurd h4 (by decide)
      · simp only [List.cons_append, List.nil_append, List.cons.injEq] at he
        rw [← he.2.2.2.2.2.1] at h5
        exact absurd h5 (by decide)
      · simp at hl
      · simp only [List.cons_append, List.cons.injEq] at he
        exact hq y6 (by simp) he.2.2.2.2.2.2.1

/-! ## The normalizer, match by match -/

/-- The shape of a text the pattern matches at its start, with the number of
characters matched. -/
theorem matchMetaAt_region (t : List Char) (m : MetaMatch) (h : matchMetaAt t = some m) :
    ∃ ws body rest, t = '<' :: (ws ++ "meta".toList ++ body ++ '>' :: rest) ∧
      (∀ x ∈ ws, isSpace x = true) ∧ (∀ x ∈ body, x ≠ '>') ∧
      body = m.cap1 ++ httpEquiv ++ m.cap2 ∧ m.length = ws.length + body.length + 6 := by
  obtain ⟨ws, body, rest, hshape, hws, hbody, hcaps⟩ := matchMetaAt_shape t m h
  refine ⟨ws, body, rest, hshape, hws, hbody, hcaps, ?_⟩
  subst hshape
  have e1 : List.takeWhile isSpace (ws ++ "meta".toList ++ body ++ '>' :: rest) = ws := by
    have : ws ++ "meta".toList ++ body ++ '>' :: rest =
        ws ++ 'm' :: ("eta".toList ++ body ++ '>' :: rest) := by
      simp [List.append_assoc]
    rw [this]
    exact takeWhile_append_stop isSpace 'm' (by decide) _ ws hws
  have e2 : List.dropWhile isSpace (ws ++ "meta".toList ++ body ++ '>' :: rest) =
      "meta".toList ++ body ++ '>' :: rest := by
    have := List.takeWhile_append_dropWhile isSpace
      (ws ++ "meta".toList ++ body ++ '>' :: rest)
    rw [e1] at this
    simp only [List.append_assoc] at this ⊢
    exact List.append_cancel_left this
  have e3 : List.drop 4 ("meta".toList ++ body ++ '>' :: rest) = body ++ '>' :: rest := by
    rw [List.append_assoc]
    rfl
  have e4 : List.takeWhile (fun x => x != '>') (body ++ '>' :: rest) = body :=
    takeWhile_append_stop (fun x => x != '>') '>' (by decide) rest body
      (fun y hy => by simpa using hbody y hy)
  unfold matchMetaAt at h
  simp only [if_true, e1, e2, e3, e4] at h
  split at h
  · split at h
    · cases hs : splitAtLast httpEquiv body with
      | none => rw [hs] at h; simp at h
      | some r =>
        rw [hs] at h
        simp only [Option.some.injEq] at h
        rw [← h]
        simp only
        omega
    · simp at h
  · simp at h

/-- Skipping the characters of a replaced match. -/
theorem replaceMeta_skip (a r : List Char) : replaceMeta a.length (a ++ r) = replaceMeta 0 r := by
  induction a with
  | nil => rfl
  | cons x xs ih =>
    show replaceMeta (xs.length + 1) (x :: (xs ++ r)) = replaceMeta 0 r
    cases hr : xs ++ r with
    | nil =>
      have : xs = [] ∧ r = [] := List.append_eq_nil.mp hr
      rw [← hr, replaceMeta, ih]
    | cons y ys => rw [← hr, replaceMeta, ih]

/-- One step of the normalizer at a match: the replacement, then the normalizer
on what follows the matched text. -/
theorem replaceMeta_of_match (t : List Char) (m : MetaMatch) (h : matchMetaAt t = some m) :
    ∃ ws body rest, t = '<' :: (ws ++ "meta".toList ++ body ++ '>' :: rest) ∧
      (∀ x ∈ ws, isSpace x = true) ∧ (∀ x ∈ body, x ≠ '>') ∧
      body = m.cap1 ++ httpEquiv ++ m.cap2 ∧
      replaceMeta 0 t = metaReplacement m ++ replaceMeta 0 rest := by
  obtain ⟨ws, body, rest, hshape, hws, hbody, hcaps, hlen⟩ := matchMetaAt_region t m h
  refine ⟨ws, body, rest, hshape, hws, hbody, hcaps, ?_⟩
  subst hshape
  rw [replaceMeta, h]
  simp only
  have e : ws ++ "meta".toList ++ body ++ '>' :: rest =
      (ws ++ "meta".toList ++ body ++ ['>']) ++ rest := by
    simp [List.append_assoc]
  have hl : m.length - 1 = (ws ++ "meta".toList ++ body ++ ['>']).length := by
    simp only [List.length_append, List.length_cons, List.length_nil]
    have : "meta".toList.length = 4 := by decide
    omega
  rw [e, hl, replaceMeta_skip]

theorem matchMetaAt_cons_of_ne (c : Char) (t : List Char) (h : c ≠ '<') :
    matchMetaAt (c :: t) = none := by
  unfold matchMetaAt
  simp only [if_neg h]

theorem replaceMeta_cons_of_ne (c : Char) (t : List Char) (h : c ≠ '<') :
    replaceMeta 0 (c :: t) = c :: replaceMeta 0 t := by
  rw [replaceMeta, matchMetaAt_cons_of_ne c t h]

theorem metaReplacement_eq_cons (m : MetaMatch) :
    ∃ tail, metaReplacement m = '<' :: tail := by
  unfold metaReplacement
  exact ⟨_, rfl⟩

/-! ## The normalizer and the head-end marker -/

/-- Text free of `<` stands at the start of the normalized text exactly when it
stands at the start of the text. -/
theorem prefix_replaceMeta_iff (w : List Char) (hw : ∀ x ∈ w, x ≠ '<') :
    ∀ cs : List Char, w <+: replaceMeta 0 cs ↔ w <+: cs := by
  induction w with
  | nil => intro cs; simp
  | cons x w1 ih =>
    intro cs
    have hx : x ≠ '<' := hw x (List.mem_cons_self x w1)
    have ih1 := ih (fun y hy => hw y (List.mem_cons_of_mem x hy))
    cases cs with
    | nil => simp [replaceMeta]
    | cons y ys =>
      cases hm : matchMetaAt (y :: ys) with
      | none =>
        rw [replaceMeta, hm]
        simp only [List.cons_prefix_cons, ih1 ys]
      | some m =>
        obtain ⟨ws, body, rest, hshape, _, _, _, hrep⟩ := replaceMeta_of_match _ m hm
        obtain ⟨tail, htail⟩ := metaReplacement_eq_cons m
        rw [hrep, htail, hshape]
        simp only [List.cons_append, List.cons_prefix_cons]
        constructor
        · intro h; exact absurd h.1 hx
        · intro h; exact absurd h.1 hx

/-- Whether a marker stands at a position does not depend on the normalizer
having run over the text after the first character. -/
theorem isHeadEndAt_cons_replaceMeta (c : Char) (cs : List Char) :
    isHeadEndAt (c :: replaceMeta 0 cs) = isHeadEndAt (c :: cs) := by
  have key : ∀ X Y : List Char,
      (∀ w : List Char, (∀ x ∈ w, x ≠ '<') → (w <+: X ↔ w <+: Y)) →
      isHeadEndAt (c :: X) = true → isHeadEndAt (c :: Y) = true := by
    intro X Y hXY h
    obtain ⟨c0, c1, c2, c3, c4, c5, c6, rest, he, h0, h1, h2, h3, h4, h5, h6⟩ :=
      (isHeadEndAt_iff _).mp h
    simp only [List.cons.injEq] at he
    have hw : ∀ x ∈ [c1, c2, c3, c4, c5, c6], x ≠ '<' := by
      intro x hx
      simp only [List.mem_cons, List.mem_singleton, List.not_mem_nil, or_false] at hx
      rcases hx with rfl | rfl | rfl | rfl | rfl | rfl
      · rw [h1]; decide
      · intro hc; rw [hc] at h2; exact absurd h2 (by decide)
      · intro hc; rw [hc] at h3; exact absurd h3 (by decide)
      · intro hc; rw [hc] at h4; exact absurd h4 (by decide)
      · intro hc; rw [hc] at h5; exact absurd h5 (by decide)
      · rw [h6]; decide
    have hp : [c1, c2, c3, c4, c5, c6] <+: X := ⟨rest, by rw [he.2]; rfl⟩
    obtain ⟨rest2, hr2⟩ := (hXY _ hw).mp hp
    exact (isHeadEndAt_iff _).mpr ⟨c0, c1, c2, c3, c4, c5, c6, rest2,
      by rw [he.1, ← hr2]; rfl, h0, h1, h2, h3, h4, h5, h6⟩
  cases h1 : isHeadEndAt (c :: cs) with
  | true => exact key cs _ (fun w hw => (prefix_replaceMeta_iff w hw cs).symm) h1
  | false =>
    cases h2 : isHeadEndAt (c :: replaceMeta 0 cs) with
    | false => rfl
    | true =>
      rw [key _ cs (fun w hw => prefix_replaceMeta_iff w hw cs) h2] at h1
      exact absurd h1 (by decide)

/-- No marker starts in a text free of `>` that is closed by a character no
marker holds: the search goes on behind that character. -/
theorem fromHeadEnd_skip (s : Char) (hs : ∀ t, isHeadEndAt t = true → s ∉ t.take 7)
    (c2 z : List Char) :
    ∀ A : List Char, (∀ y ∈ A ++ s :: c2, y ≠ '>') →
      fromHeadEnd (A ++ s :: c2 ++ '>' :: z) = fromHeadEnd (c2 ++ '>' :: z) := by
  have none_at : ∀ A : List Char, (∀ y ∈ A ++ s :: c2, y ≠ '>') →
      isHeadEndAt (A ++ s :: c2 ++ '>' :: z) = false := by
    intro A hA
    rw [isHeadEndAt_append_gt _ _ hA]
    by_cases hl : (A ++ s :: c2).length = 6
    · cases hh : isHeadEndAt (A ++ s :: c2 ++ ['>']) with
      | false => simp
      | true =>
        exfalso
        apply hs _ hh
        have hlen : (A ++ s :: c2 ++ ['>']).length ≤ 7 := by
          rw [List.length_append, hl]
          simp
        rw [List.take_of_length_le hlen]
        simp
    · rw [decide_eq_false hl, Bool.false_and]
  intro A
  induction A with
  | nil =>
    intro hA
    show fromHeadEnd (s :: (c2 ++ '>' :: z)) = _
    rw [fromHeadEnd]
    have := none_at [] hA
    simp only [List.nil_append, List.cons_append] at this
    rw [this]
    rfl
  | cons a A1 ih =>
    intro hA
    show fromHeadEnd (a :: (A1 ++ s :: c2 ++ '>' :: z)) = _
    rw [fromHeadEnd]
    have := none_at (a :: A1) hA
    simp only [List.cons_append] at this
    rw [this]
    exact ih (fun y hy => hA y (List.mem_cons_of_mem a hy))

theorem quote_not_in_marker : ∀ t, isHeadEndAt t = true → '"' ∉ t.take 7 := by
  intro t h
  obtain ⟨c0, c1, c2, c3, c4, c5, c6, rest, rfl, rfl, rfl, h2, h3, h4, h5, rfl⟩ :=
    (isHeadEndAt_iff _).mp h
  simp only [List.take_succ_cons, List.take_zero, List.mem_cons, List.mem_singleton,
    List.not_mem_nil, or_false]
  rintro (hc | hc | hc | hc | hc | hc | hc)
  · exact absurd hc (by decide)
  · exact absurd hc (by decide)
  · rw [← hc] at h2; exact absurd h2 (by decide)
  · rw [← hc] at h3; exact absurd h3 (by decide)
  · rw [← hc] at h4; exact absurd h4 (by decide)
  · rw [← hc] at h5; exact absurd h5 (by decide)
  · exact absurd hc (by decide)

theorem blank_not_in_marker : ∀ t, isHeadEndAt t = true → ' ' ∉ t.take 7 := by
  intro t h
  obtain ⟨c0, c1, c2, c3, c4, c5, c6, rest, rfl, rfl, rfl, h2, h3, h4, h5, rfl⟩ :=
    (isHeadEndAt_iff _).mp h
  simp only [List.take_succ_cons, List.take_zero, List.mem_cons, List.mem_singleton,
    List.not_mem_nil, or_false]
  rintro (hc | hc | hc | hc | hc | hc | hc)
  · exact absurd hc (by decide)
  · exact absurd hc (by decide)
  · rw [← hc] at h2; exact absurd h2 (by decide)
  · rw [← hc] at h3; exact absurd h3 (by decide)
  · rw [← hc] at h4; exact absurd h4 (by decide)
  · rw [← hc] at h5; exact absurd h5 (by decide)
  · exact absurd hc (by decide)

/-- In a text free of `>` that a `>` closes, the first marker is the text's last
six characters with that `>`, or the search goes on behind the `>`; which of the
two does not depend on what follows. -/
theorem fromHeadEnd_append_gt (q : List Char) (hq : ∀ y ∈ q, y ≠ '>') :
    (∃ mk, isHeadEndAt (mk ++ ['>']) = true ∧ mk.length = 6 ∧
      ∀ z, fromHeadEnd (q ++ '>' :: z) = some (mk ++ '>' :: z)) ∨
    (∀ z, fromHeadEnd (q ++ '>' :: z) = fromHeadEnd z) := by
  induction q with
  | nil =>
    right
    intro z
    show fromHeadEnd ('>' :: z) = _
    rw [fromHeadEnd, isHeadEndAt_cons_of_ne _ _ (by decide)]
    rfl
  | cons x q1 ih =>
    by_cases hm : (x :: q1).length = 6 ∧ isHeadEndAt (x :: q1 ++ ['>']) = true
    · left
      refine ⟨x :: q1, hm.2, hm.1, ?_⟩
      intro z
      have := isHeadEndAt_append_gt (x :: q1) z hq
      rw [hm.2, decide_eq_true hm.1] at this
      simp only [List.cons_append, Bool.and_self] at this
      show fromHeadEnd (x :: (q1 ++ '>' :: z)) = _
      rw [fromHeadEnd, this]
      rfl
    · have hno : ∀ z, isHeadEndAt (x :: (q1 ++ '>' :: z)) = false := by
        intro z
        have := isHeadEndAt_append_gt (x :: q1) z hq
        simp only [List.cons_append] at this
        rw [this]
        by_cases hl : (x :: q1).length = 6
        · have : isHeadEndAt (x :: (q1 ++ ['>'])) = false := by
            cases hh : isHeadEndAt (x :: (q1 ++ ['>'])) with
            | false => rfl
            | true => exact absurd ⟨hl, hh⟩ hm
          rw [this, Bool.and_false]
        · rw [decide_eq_false hl, Bool.false_and]
      have step : ∀ z, fromHeadEnd (x :: q1 ++ '>' :: z) = fromHeadEnd (q1 ++ '>' :: z) := by
        intro z
        show fromHeadEnd (x :: (q1 ++ '>' :: z)) = _
        rw [fromHeadEnd, hno z]
        rfl
      rcases ih (fun y hy => hq y (List.mem_cons_of_mem x hy)) with ⟨mk, h1, h2, h3⟩ | h
      · left
        exact ⟨mk, h1, h2, fun z => by rw [step z, h3 z]⟩
      · right
        exact fun z => by rw [step z, h z]

theorem matchMetaAt_lt_slash (t : List Char) : matchMetaAt ('<' :: '/' :: t) = none := by
  have e1 : List.dropWhile isSpace ('/' :: t) = '/' :: t :=
    List.dropWhile_cons_of_neg (by decide)
  have e3 : "meta".toList.isPrefixOf ('/' :: t) = false := by
    cases h : "meta".toList.isPrefixOf ('/' :: t) with
    | false => rfl
    | true =>
      rw [List.isPrefixOf_iff_prefix] at h
      obtain ⟨r, hr⟩ := h
      have : "meta".toList = ['m', 'e', 't', 'a'] := by decide
      rw [this] at hr
      simp only [List.cons_append, List.cons.injEq] at hr
      exact absurd hr.1 (by decide)
  unfold matchMetaAt
  simp only [if_true, e1, e3]
  rfl

/-- The normalizer leaves a head-end marker as it is. -/
theorem replaceMeta_marker (mk rest : List Char) (hm : isHeadEndAt (mk ++ ['>']) = true)
    (hl : mk.length = 6) :
    replaceMeta 0 (mk ++ '>' :: rest) = mk ++ '>' :: replaceMeta 0 rest := by
  obtain ⟨c0, c1, c2, c3, c4, c5, c6, r, he, h0, h1, h2, h3, h4, h5, h6⟩ :=
    (isHeadEndAt_iff _).mp hm
  rcases mk with _ | ⟨y0, _ | ⟨y1, _ | ⟨y2, _ | ⟨y3, _ | ⟨y4, _ | ⟨y5, _ | ⟨y6, q7⟩⟩⟩⟩⟩⟩⟩ <;>
    simp only [List.length_cons, List.length_nil] at hl <;> try omega
  simp only [List.cons_append, List.nil_append, List.cons.injEq] at he
  obtain ⟨e0, e1, e2, e3, e4, e5, _⟩ := he
  subst e0 e1 e2 e3 e4 e5
  subst h0 h1
  have n2 : y2 ≠ '<' := by intro hc; rw [hc] at h2; exact absurd h2 (by decide)
  have n3 : y3 ≠ '<' := by intro hc; rw [hc] at h3; exact absurd h3 (by decide)
  have n4 : y4 ≠ '<' := by intro hc; rw [hc] at h4; exact absurd h4 (by decide)
  have n5 : y5 ≠ '<' := by intro hc; rw [hc] at h5; exact absurd h5 (by decide)
  show replaceMeta 0 ('<' :: '/' :: y2 :: y3 :: y4 :: y5 :: '>' :: rest) = _
  rw [replaceMeta, matchMetaAt_lt_slash]
  simp only
  rw [replaceMeta_cons_of_ne _ _ (by decide), replaceMeta_cons_of_ne _ _ n2,
    replaceMeta_cons_of_ne _ _ n3, replaceMeta_cons_of_ne _ _ n4,
    replaceMeta_cons_of_ne _ _ n5, replaceMeta_cons_of_ne _ _ (by decide)]
  rfl

theorem httpEquiv_eq : httpEquiv = "http-equiv=\"Content-Type".toList ++ ['"'] := by
  decide

/-- The text from the first head-end marker of the normalized text on is the
normalized text from the first head-end marker of the text on: the normalizer
neither makes nor unmakes a marker, and it rewrites behind the marker as it
does before it. -/
theorem fromHeadEnd_replaceMeta :
    ∀ (n : Nat) (t : List Char), t.length ≤ n →
      fromHeadEnd (replaceMeta 0 t) = (fromHeadEnd t).map (replaceMeta 0) := by
  intro n
  induction n with
  | zero =>
    intro t ht
    have : t = [] := List.eq_nil_of_length_eq_zero (by omega)
    subst this
    rfl
  | succ n ih =>
    intro t ht
    rcases t with _ | ⟨c, cs⟩
    · rfl
    simp only [List.length_cons] at ht
    cases hm : matchMetaAt (c :: cs) with
    | none =>
      have hrep : replaceMeta 0 (c :: cs) = c :: replaceMeta 0 cs := by
        rw [replaceMeta, hm]
      rw [hrep]
      rw [fromHeadEnd, fromHeadEnd, isHeadEndAt_cons_replaceMeta]
      cases hh : isHeadEndAt (c :: cs) with
      | true => simp only [if_true, Option.map_some', hrep]
      | false =>
        simp only [Bool.false_eq_true, if_false]
        exact ih cs (by omega)
    | some m =>
      obtain ⟨ws, body, rest, hshape, hws, hbody, hcaps, hrep⟩ := replaceMeta_of_match _ m hm
      have hrest : rest.length ≤ n := by
        have := congrArg List.length hshape
        simp only [List.length_cons, List.length_append] at this
        omega
      have hc1 : ∀ x ∈ m.cap1, x ≠ '>' := fun x hx => hbody x (by rw [hcaps]; simp [hx])
      have hc2 : ∀ x ∈ m.cap2, x ≠ '>' := fun x hx => hbody x (by rw [hcaps]; simp [hx])
      have hlit : ∀ x ∈ "http-equiv=\"Content-Type".toList, x ≠ '>' := by decide
      have hmeta : ∀ x ∈ "meta".toList, x ≠ '>' := by decide
      have hopen : ∀ x ∈ "<meta http-equiv=\"Content-Type\" ".toList, x ≠ '>' := by decide
      -- the text: everything up to the closing quote of the literal is skipped
      have e1 : c :: cs =
          ('<' :: (ws ++ "meta".toList ++ m.cap1 ++ "http-equiv=\"Content-Type".toList)) ++
            '"' :: m.cap2 ++ '>' :: rest := by
        rw [hshape, hcaps, httpEquiv_eq]
        simp only [List.append_assoc, List.cons_append, List.nil_append]
      have s1 : fromHeadEnd (c :: cs) = fromHeadEnd (m.cap2 ++ '>' :: rest) := by
        rw [e1]
        apply fromHeadEnd_skip '"' quote_not_in_marker
        intro y hy
        simp only [List.cons_append, List.mem_cons, List.mem_append] at hy
        rcases hy with rfl | (((hy | hy) | hy) | hy) | rfl | hy
        · decide
        · intro hc
          rw [hc] at hy
          exact absurd (hws _ hy) (by decide)
        · exact hmeta y hy
        · exact hc1 y hy
        · exact hlit y hy
        · decide
        · exact hc2 y hy
      -- the replacement: everything up to the blank before the second capture
      have e2 : metaReplacement m ++ replaceMeta 0 rest =
          ("<meta http-equiv=\"Content-Type\" ".toList ++ m.cap1) ++
            ' ' :: m.cap2 ++ '>' :: replaceMeta 0 rest := by
        unfold metaReplacement
        simp only [List.append_assoc, List.cons_append, List.nil_append]
      have s2 : fromHeadEnd (metaReplacement m ++ replaceMeta 0 rest) =
          fromHeadEnd (m.cap2 ++ '>' :: replaceMeta 0 rest) := by
        rw [e2]
        apply fromHeadEnd_skip ' ' blank_not_in_marker
        intro y hy
        simp only [List.mem_cons, List.mem_append] at hy
        rcases hy with (hy | hy) | rfl | hy
        · exact hopen y hy
        · exact hc1 y hy
        · decide
        · exact hc2 y hy
      rw [hrep, s2, s1]
      rcases fromHeadEnd_append_gt m.cap2 hc2 with ⟨mk, hk1, hk2, hk3⟩ | hk
      · rw [hk3, hk3, Option.map_some', replaceMeta_marker mk rest hk1 hk2]
      · rw [hk, hk]
        exact ih rest hrest

theorem fromHeadEnd_eq (t : List Char) :
    fromHeadEnd t = (indexOfHeadEnd t).map (fun k => t.drop k) := by
  induction t with
  | nil => rfl
  | cons c cs ih =>
    rw [fromHeadEnd, indexOfHeadEnd]
    cases isHeadEndAt (c :: cs) with
    | true => rfl
    | false =>
      simp only [Bool.false_eq_true, if_false, ih, Option.map_map]
      rfl

/-- The normalized text has a head-end marker exactly when the text has one, and
behind the marker it is the normalized text behind the marker. -/
theorem indexOfHeadEnd_normalize (d : List Char) :
    (indexOfHeadEnd d = none → indexOfHeadEnd (normalize d) = none) ∧
    (∀ k, indexOfHeadEnd d = some k →
      ∃ k1, indexOfHeadEnd (normalize d) = some k1 ∧
        (normalize d).drop k1 = normalize (d.drop k)) := by
  have hM := fromHeadEnd_replaceMeta d.length d (Nat.le_refl _)
  rw [fromHeadEnd_eq, fromHeadEnd_eq d] at hM
  constructor
  · intro h
    rw [h] at hM
    cases hn : indexOfHeadEnd (replaceMeta 0 d) with
    | none => exact hn
    | some k1 => rw [hn] at hM; simp at hM
  · intro k h
    rw [h] at hM
    cases hn : indexOfHeadEnd (replaceMeta 0 d) with
    | none => rw [hn] at hM; simp at hM
    | some k1 =>
      rw [hn] at hM
      simp only [Option.map_some', Option.some.injEq] at hM
      exact ⟨k1, hn, hM⟩

/-- C17: when the sniffer returns the locale default and the document has no
head-end marker, the search for a declaration is skipped: the result is the
UTF-8 codec if `IsValidUtf8` accepts the raw bytes and the locale default
otherwise, whatever the document declares. -/
theorem GetCodecForHTML_no_head_end (qt : Qt) (raw_text : Option (List Nat))
    (hsniff : (qt.codecForHtml (toAscii (normalize (fromAscii raw_text)))
      qt.codecForLocale).name = qt.codecForLocale.name)
    (hno : indexOfHeadEnd (fromAscii raw_text) = none) :
    GetCodecForHTML qt raw_text =
      if IsValidUtf8 raw_text = true then qt.codecForName (cstr "UTF-8")
      else some qt.codecForLocale := by
  have h1 : indexOfHeadEnd (normalize (fromAscii raw_text)) = none :=
    (indexOfHeadEnd_normalize (fromAscii raw_text)).1 hno
  unfold GetCodecForHTML declaredCodec
  simp only [hsniff, h1, if_true]

theorem GetCodecForHTML_no_head_end_witness :
    (latin1Qt.codecForHtml (toAscii (normalize (fromAscii (some docNoHeadEnd))))
      latin1Qt.codecForLocale).name = latin1Qt.codecForLocale.name ∧
    indexOfHeadEnd (fromAscii (some docNoHeadEnd)) = none ∧
    latin1Qt.codecForName (toAscii (charsetCap (normalize (fromAscii (some docNoHeadEnd))))) =
      some ⟨"ISO-8859-1"⟩ ∧
    GetCodecForHTML latin1Qt (some docNoHeadEnd) =
      if IsValidUtf8 (some docNoHeadEnd) = true then latin1Qt.codecForName (cstr "UTF-8")
      else some latin1Qt.codecForLocale :=
  ⟨rfl, by decide, by decide,
    GetCodecForHTML_no_head_end latin1Qt (some docNoHeadEnd) rfl (by decide)⟩

/-- C18 (counterexample): a meta tag behind the head-end marker is rewritten like
one before it. -/
theorem normalize_rewrites_behind_head_end :
    indexOfHeadEnd docMetaInBody = some 6 ∧
    indexOfHeadEnd (normalize docMetaInBody) = some 6 ∧
    docMetaInBody.drop 6 =
      "</head><body><meta http-equiv=\"Content-Type\"></body>".toList ∧
    (normalize docMetaInBody).drop 6 =
      "</head><body><meta http-equiv=\"Content-Type\"   ></body>".toList ∧
    (normalize docMetaInBody).drop 6 ≠ docMetaInBody.drop 6 := by
  decide

/-- C18 (amended): the normalizer works on the whole text. For a document with a
head-end marker the normalized document has one too, and its text from the
marker on is the normalized text of the document from its marker on; that is the
text of the document from its marker on when the pattern matches nowhere
there. -/
theorem normalize_from_head_end (d : List Char) (k : Nat) (hk : indexOfHeadEnd d = some k) :
    ∃ k1, indexOfHeadEnd (normalize d) = some k1 ∧
      (normalize d).drop k1 = normalize (d.drop k) ∧
      (hasMetaMatch (d.drop k) = false → (normalize d).drop k1 = d.drop k) := by
  obtain ⟨k1, h1, h2⟩ := (indexOfHeadEnd_normalize d).2 k hk
  refine ⟨k1, h1, h2, ?_⟩
  intro hno
  rw [h2]
  exact replaceMeta_of_no_match _ hno

theorem normalize_from_head_end_witness :
    indexOfHeadEnd docMetaInHead = some 38 ∧
    ∃ k1, indexOfHeadEnd (normalize docMetaInHead) = some k1 ∧
      (normalize docMetaInHead).drop k1 = normalize (docMetaInHead.drop 38) ∧
      (hasMetaMatch (docMetaInHead.drop 38) = false →
        (normalize docMetaInHead).drop k1 = docMetaInHead.drop 38) :=
  ⟨by decide, normalize_from_head_end docMetaInHead 38 (by decide)⟩

/-! ## The charset pattern -/

/-- The resolver when the sniffer returns a codec named like the locale default:
the declared codec, or else the outcome of the UTF-8 test. -/
theorem GetCodecForHTML_of_locale_sniff (qt : Qt) (raw_text : Option (List Nat))
    (hsniff : (qt.codecForHtml (toAscii (normalize (fromAscii raw_text)))
      qt.codecForLocale).name = qt.codecForLocale.name) :
    GetCodecForHTML qt raw_text =
      match declaredCodec qt (normalize (fromAscii raw_text)) with
      | some codec => some codec
      | none =>
        if IsValidUtf8 raw_text = true then qt.codecForName (cstr "UTF-8")
        else some qt.codecForLocale := by
  unfold GetCodecForHTML
  simp only [hsniff, if_true]

theorem matchValueAt_hit (lit value rest : List Char) (hv : value ≠ [])
    (hq : ∀ x ∈ value, x ≠ '"') :
    matchValueAt lit (lit ++ value ++ '"' :: rest) = some value := by
  have e1 : lit.isPrefixOf (lit ++ value ++ '"' :: rest) = true := by
    rw [List.isPrefixOf_iff_prefix, List.append_assoc]
    exact List.prefix_append _ _
  have e2 : List.drop lit.length (lit ++ value ++ '"' :: rest) = value ++ '"' :: rest := by
    rw [List.append_assoc, List.drop_left]
  have e3 : List.takeWhile (fun x => x != '"') (value ++ '"' :: rest) = value :=
    takeWhile_append_stop (fun x => x != '"') '"' (by decide) rest value
      (fun y hy => by simpa using hq y hy)
  unfold matchValueAt
  simp only [e1, if_true, e2, e3]
  rw [if_pos]
  refine ⟨hv, ?_⟩
  simp only [List.length_append, List.length_cons]
  omega

/-- The capture of the pattern `lit([^"]+)"` is the value of the first place
where the literal stands, when a value and a double quote follow it there. -/
theorem cap1Of_first (lit value rest : List Char) (hv : value ≠ [])
    (hq : ∀ x ∈ value, x ≠ '"') :
    ∀ pre : List Char,
      (∀ s, s ≠ [] → s <:+ pre →
        lit.isPrefixOf (s ++ (lit ++ value ++ '"' :: rest)) = false) →
      cap1Of lit (pre ++ (lit ++ value ++ '"' :: rest)) = value := by
  intro pre
  induction pre with
  | nil =>
    intro _
    have hne : lit ++ value ++ '"' :: rest ≠ [] := by simp
    obtain ⟨c, cs, hc⟩ := List.exists_cons_of_ne_nil hne
    rw [List.nil_append, hc, cap1Of, ← hc, matchValueAt_hit lit value rest hv hq]
  | cons p pre1 ih =>
    intro h
    have h0 := h (p :: pre1) (by simp) (List.suffix_refl _)
    show cap1Of lit (p :: (pre1 ++ (lit ++ value ++ '"' :: rest))) = value
    have hm : matchValueAt lit (p :: (pre1 ++ (lit ++ value ++ '"' :: rest))) = none := by
      unfold matchValueAt
      simp only [List.cons_append] at h0
      simp only [h0, Bool.false_eq_true, if_false]
    rw [cap1Of, hm]
    exact ih (fun s hs hsuf => h s hs (List.suffix_cons_iff.mpr (Or.inr hsuf)))

/-- Where `charset=` does not occur before a place, the charset pattern matches
at no earlier place. -/
theorem charset_not_before (pre tail : List Char)
    (hpre : ¬ "charset=".toList <:+: pre ++ "charset".toList) :
    ∀ s, s ≠ [] → s <:+ pre →
      "charset=".toList.isPrefixOf (s ++ ("charset=".toList ++ tail)) = false := by
  intro s hs hsuf
  cases hp : "charset=".toList.isPrefixOf (s ++ ("charset=".toList ++ tail)) with
  | false => rfl
  | true =>
    exfalso
    apply hpre
    rw [List.isPrefixOf_iff_prefix] at hp
    have e : s ++ ("charset=".toList ++ tail) = (s ++ "charset".toList) ++ ('=' :: tail) := by
      have : "charset=".toList = "charset".toList ++ ['='] := by decide
      rw [this]
      simp only [List.append_assoc, List.cons_append, List.nil_append]
    have hp2 : s ++ "charset".toList <+: s ++ ("charset=".toList ++ tail) := by
      rw [e]
      exact List.prefix_append _ _
    have hlen : "charset=".toList.length ≤ (s ++ "charset".toList).length := by
      have h1 : 0 < s.length := List.length_pos.mpr hs
      have h2 : "charset=".toList.length = 8 := by decide
      have h3 : "charset".toList.length = 7 := by decide
      rw [List.length_append, h2, h3]
      omega
    have hpre2 : "charset=".toList <+: s ++ "charset".toList :=
      List.prefix_of_prefix_length_le hp hp2 hlen
    obtain ⟨p0, hp0⟩ := hsuf
    rw [← hp0, List.append_assoc]
    exact List.IsInfix.trans hpre2.isInfix (List.suffix_append _ _).isInfix

/-- C15 (counterexample): a charset value that opens with a double quote is not
captured; the document resolves through the UTF-8 test. -/
theorem GetCodecForHTML_quoted_charset :
    indexOfHeadEnd (normalize (fromAscii (some docQuotedCharset))) = some 33 ∧
    charsetCap (Substring 0 33 (normalize (fromAscii (some docQuotedCharset)))) = [] ∧
    latin1Qt.codecForName (cstr "ISO-8859-1") = some ⟨"ISO-8859-1"⟩ ∧
    GetCodecForHTML latin1Qt (some docQuotedCharset) = some ⟨"UTF-8"⟩ ∧
    GetCodecForHTML latin1Qt (some docQuotedCharset) ≠ some ⟨"ISO-8859-1"⟩ := by
  have hd : declaredCodec latin1Qt (normalize (fromAscii (some docQuotedCharset))) = none := by
    decide
  have hv : IsValidUtf8 (some docQuotedCharset) = true :=
    utf8Loop_of_all_ascii _ (by decide)
  have h : GetCodecForHTML latin1Qt (some docQuotedCharset) = some ⟨"UTF-8"⟩ := by
    rw [GetCodecForHTML_of_locale_sniff latin1Qt _ rfl, hd, hv]
    decide
  rw [h]
  exact ⟨by decide, by decide, by decide, rfl, by decide⟩

/-- C15 (amended): the search recognises `charset=V"`, a value that runs from
`charset=` to the next double quote. When the sniffer returns the locale default
and the head of the normalized document holds `charset=V"` with `V` not empty, a
name the registry resolves, and no `charset=` before it, the result is the codec
of `V`. -/
theorem GetCodecForHTML_charset_value (qt : Qt) (raw_text : Option (List Nat))
    (head_end : Nat) (pre value rest : List Char) (codec : QTextCodec)
    (hsniff : (qt.codecForHtml (toAscii (normalize (fromAscii raw_text)))
      qt.codecForLocale).name = qt.codecForLocale.name)
    (hhead : indexOfHeadEnd (normalize (fromAscii raw_text)) = some head_end)
    (hdoc : Substring 0 head_end (normalize (fromAscii raw_text)) =
      pre ++ ("charset=".toList ++ value ++ '"' :: rest))
    (hpre : ¬ "charset=".toList <:+: pre ++ "charset".toList)
    (hv : value ≠ []) (hq : ∀ x ∈ value, x ≠ '"')
    (hreg : qt.codecForName (toAscii value) = some codec) :
    GetCodecForHTML qt raw_text = some codec := by
  have hcap : charsetCap (Substring 0 head_end (normalize (fromAscii raw_text))) = value := by
    rw [hdoc]
    unfold charsetCap
    apply cap1Of_first _ _ _ hv hq
    intro s hs hsuf
    rw [List.append_assoc]
    exact charset_not_before pre _ hpre s hs hsuf
  rw [GetCodecForHTML_of_locale_sniff qt _ hsniff]
  unfold declaredCodec
  simp only [hhead, hcap, hreg]

theorem GetCodecForHTML_charset_value_witness :
    (latin1Qt.codecForHtml (toAscii (normalize (fromAscii (some docContentCharset))))
      latin1Qt.codecForLocale).name = latin1Qt.codecForLocale.name ∧
    indexOfHeadEnd (normalize (fromAscii (some docContentCharset))) = some 52 ∧
    Substring 0 52 (normalize (fromAscii (some docContentCharset))) =
      "<head><meta content=\"text/html; ".toList ++
        ("charset=".toList ++ "ISO-8859-1".toList ++ '"' :: ['>']) ∧
    ¬ "charset=".toList <:+: "<head><meta content=\"text/html; ".toList ++ "charset".toList ∧
    latin1Qt.codecForName (toAscii "ISO-8859-1".toList) = some ⟨"ISO-8859-1"⟩ ∧
    GetCodecForHTML latin1Qt (some docContentCharset) = some ⟨"ISO-8859-1"⟩ :=
  ⟨rfl, by decide, by decide, by decide, by decide,
    GetCodecForHTML_charset_value latin1Qt (some docContentCharset) 52
      "<head><meta content=\"text/html; ".toList "ISO-8859-1".toList ['>'] ⟨"ISO-8859-1"⟩
      rfl (by decide) (by decide) (by decide) (by decide) (by decide) (by decide)⟩

/-! ## A meta tag in the head -/

/-- The normalizer on a meta tag written without white space after `<`: the
replacement built from the two parts of the tag body around the last
`http-equiv` literal, then the normalizer on what follows the tag. -/
theorem replaceMeta_of_body (body rest cap1 cap2 : List Char) (hb : ∀ x ∈ body, x ≠ '>')
    (hs : splitAtLast httpEquiv body = some (cap1, cap2)) :
    replaceMeta 0 ('<' :: 'm' :: 'e' :: 't' :: 'a' :: (body ++ '>' :: rest)) =
      metaReplacement ⟨cap1, cap2, body.length + 6⟩ ++ replaceMeta 0 rest := by
  have htw : (body ++ '>' :: rest).takeWhile (fun x => x != '>') = body :=
    takeWhile_append_stop (fun x => x != '>') '>' (by decide) rest body
      (fun y hy => by simpa using hb y hy)
  have e1 : List.takeWhile isSpace ('m' :: 'e' :: 't' :: 'a' :: (body ++ '>' :: rest)) = [] :=
    List.takeWhile_cons_of_neg (by decide)
  have e2 : List.dropWhile isSpace ('m' :: 'e' :: 't' :: 'a' :: (body ++ '>' :: rest)) =
      'm' :: 'e' :: 't' :: 'a' :: (body ++ '>' :: rest) :=
    List.dropWhile_cons_of_neg (by decide)
  have e3 : "meta".toList.isPrefixOf ('m' :: 'e' :: 't' :: 'a' :: (body ++ '>' :: rest)) =
      true := by
    rw [List.isPrefixOf_iff_prefix]
    exact ⟨body ++ '>' :: rest, rfl⟩
  have hm : matchMetaAt ('<' :: 'm' :: 'e' :: 't' :: 'a' :: (body ++ '>' :: rest)) =
      some ⟨cap1, cap2, body.length + 6⟩ := by
    unfold matchMetaAt
    simp only [if_true, e1, e2, e3, List.drop_succ_cons, List.drop_zero, htw, hs,
      List.length_append, List.length_cons, List.length_nil]
    rw [if_pos (by omega)]
    simp only [Option.some.injEq, MetaMatch.mk.injEq, true_and]
    omega
  rw [replaceMeta, hm]
  simp only
  have e : 'm' :: 'e' :: 't' :: 'a' :: (body ++ '>' :: rest) =
      ('m' :: 'e' :: 't' :: 'a' :: (body ++ ['>'])) ++ rest := by
    simp only [List.cons_append, List.append_assoc, List.nil_append]
  have hl : body.length + 6 - 1 = ('m' :: 'e' :: 't' :: 'a' :: (body ++ ['>'])).length := by
    simp only [List.length_cons, List.length_append, List.length_nil]
    omega
  rw [e, hl, replaceMeta_skip]

/-- A first marker at or behind the end of a part: no marker starts in the part,
and the marker is the first one of the rest. -/
theorem indexOfHeadEnd_append_inv (Z : List Char) :
    ∀ (L : List Char) (k : Nat), indexOfHeadEnd (L ++ Z) = some k → L.length ≤ k →
      (∀ s, s ≠ [] → s <:+ L → isHeadEndAt (s ++ Z) = false) ∧
        indexOfHeadEnd Z = some (k - L.length) := by
  intro L
  induction L with
  | nil =>
    intro k h _
    refine ⟨?_, by simpa using h⟩
    intro s hs hsuf
    exact absurd (List.suffix_nil.mp hsuf) hs
  | cons c L1 ih =>
    intro k h hk
    simp only [List.cons_append, List.length_cons] at h hk
    rw [indexOfHeadEnd] at h
    cases hh : isHeadEndAt (c :: (L1 ++ Z)) with
    | true =>
      rw [hh] at h
      simp only [if_true, Option.some.injEq] at h
      omega
    | false =>
      rw [hh] at h
      simp only [Bool.false_eq_true, if_false] at h
      cases hi : indexOfHeadEnd (L1 ++ Z) with
      | none => rw [hi] at h; simp at h
      | some k1 =>
        rw [hi] at h
        simp only [Option.map_some', Option.some.injEq] at h
        obtain ⟨h1, h2⟩ := ih k1 hi (by omega)
        refine ⟨?_, ?_⟩
        · intro s hs hsuf
          rcases List.suffix_cons_iff.mp hsuf with rfl | hsuf
          · exact hh
          · exact h1 s hs hsuf
        · rw [h2]
          congr 1
          simp only [List.length_cons]
          omega

/-- A literal that lacks a character stands before that character in a text only
inside what precedes it. -/
theorem prefix_of_prefix_append_cons (x : Char) (b : List Char) :
    ∀ (a l : List Char), x ∉ l → l <+: a ++ x :: b → l <+: a := by
  intro a
  induction a with
  | nil =>
    intro l hx hp
    cases l with
    | nil => exact List.nil_prefix
    | cons y l1 =>
      simp only [List.nil_append, List.cons_prefix_cons] at hp
      exact absurd (List.mem_cons.mpr (Or.inl hp.1.symm)) hx
  | cons z a1 ih =>
    intro l hx hp
    cases l with
    | nil => exact List.nil_prefix
    | cons y l1 =>
      simp only [List.cons_append, List.cons_prefix_cons] at hp ⊢
      exact ⟨hp.1, ih l1 (fun hm => hx (List.mem_cons_of_mem y hm)) hp.2⟩

theorem infix_append_cons (x : Char) (b l : List Char) (hx : x ∉ l) :
    ∀ a : List Char, l <:+: a ++ x :: b → l <:+: a ∨ l <:+: b := by
  intro a
  induction a with
  | nil =>
    intro h
    rw [List.nil_append, List.infix_cons_iff] at h
    rcases h with h | h
    · left
      exact (prefix_of_prefix_append_cons x b [] l hx h).isInfix
    · right
      exact h
  | cons z a1 ih =>
    intro h
    rw [List.cons_append, List.infix_cons_iff] at h
    rcases h with h | h
    · left
      exact (prefix_of_prefix_append_cons x b (z :: a1) l hx h).isInfix
    · rcases ih h with h1 | h1
      · left
        exact List.infix_cons_iff.mpr (Or.inr h1)
      · right
        exact h1

set_option maxRecDepth 8000

/-- C12 (counterexample): a `charset=` that stands in the head before the meta
tag decides; the document resolves to UTF-8, not to the ISO-8859-1 the meta tag
declares. -/
theorem GetCodecForHTML_earlier_charset :
    fromAscii (some docEarlierCharset) =
      "<head><link rel=\"stylesheet\" type=\"text/css; charset=UTF-8\" href=\"s.css\">".toList ++
        metaHttpEquivFirst ++ "</head>".toList ∧
    indexOfHeadEnd (fromAscii (some docEarlierCharset)) = some 145 ∧
    latin1Qt.codecForName (cstr "ISO-8859-1") = some ⟨"ISO-8859-1"⟩ ∧
    latin1Qt.codecForHtml (toAscii (normalize (fromAscii (some docEarlierCharset))))
      latin1Qt.codecForLocale = latin1Qt.codecForLocale ∧
    GetCodecForHTML latin1Qt (some docEarlierCharset) = some ⟨"UTF-8"⟩ ∧
    GetCodecForHTML latin1Qt (some docEarlierCharset) ≠ some ⟨"ISO-8859-1"⟩ := by
  have hd : declaredCodec latin1Qt (normalize (fromAscii (some docEarlierCharset))) =
      some ⟨"UTF-8"⟩ := by decide
  have h : GetCodecForHTML latin1Qt (some docEarlierCharset) = some ⟨"UTF-8"⟩ := by
    rw [GetCodecForHTML_of_locale_sniff latin1Qt _ rfl, hd]
  rw [h]
  exact ⟨by decide, by decide, by decide, rfl, rfl, by decide⟩

/-! ## A meta tag in the head: the normalizer before and at the tag -/

/-- The captures of a match are the two parts of the tag body around the last
`http-equiv` literal. -/
theorem matchMetaAt_split (t : List Char) (m : MetaMatch) (h : matchMetaAt t = some m) :
    ∃ ws body rest, t = '<' :: (ws ++ "meta".toList ++ body ++ '>' :: rest) ∧
      (∀ x ∈ ws, isSpace x = true) ∧ (∀ x ∈ body, x ≠ '>') ∧
      replaceMeta 0 t = metaReplacement m ++ replaceMeta 0 rest ∧
      splitAtLast httpEquiv body = some (m.cap1, m.cap2) ∧
      m.length = ws.length + body.length + 6 := by
  obtain ⟨ws, body, rest, hshape, hws, hbody, _, hrep⟩ := replaceMeta_of_match t m h
  refine ⟨ws, body, rest, hshape, hws, hbody, hrep, ?_⟩
  subst hshape
  have e1 : List.takeWhile isSpace (ws ++ "meta".toList ++ body ++ '>' :: rest) = ws := by
    have : ws ++ "meta".toList ++ body ++ '>' :: rest =
        ws ++ 'm' :: ("eta".toList ++ body ++ '>' :: rest) := by
      simp [List.append_assoc]
    rw [this]
    exact takeWhile_append_stop isSpace 'm' (by decide) _ ws hws
  have e2 : List.dropWhile isSpace (ws ++ "meta".toList ++ body ++ '>' :: rest) =
      "meta".toList ++ body ++ '>' :: rest := by
    have := List.takeWhile_append_dropWhile isSpace
      (ws ++ "meta".toList ++ body ++ '>' :: rest)
    rw [e1] at this
    simp only [List.append_assoc] at this ⊢
    exact List.append_cancel_left this
  have e3 : List.drop 4 ("meta".toList ++ body ++ '>' :: rest) = body ++ '>' :: rest := by
    rw [List.append_assoc]
    rfl
  have e4 : List.takeWhile (fun x => x != '>') (body ++ '>' :: rest) = body :=
    takeWhile_append_stop (fun x => x != '>') '>' (by decide) rest body
      (fun y hy => by simpa using hbody y hy)
  unfold matchMetaAt at h
  simp only [if_true, e1, e2, e3, e4] at h
  split at h
  · split at h
    · cases hs : splitAtLast httpEquiv body with
      | none => rw [hs] at h; simp at h
      | some r =>
        rw [hs] at h
        simp only [Option.some.injEq] at h
        rw [← h]
        refine ⟨rfl, ?_⟩
        simp only
        omega
    · simp at h
  · simp at h

/-- A `charset=` in the replacement of a match stands in one of the captures. -/
theorem charset_infix_metaReplacement (m : MetaMatch)
    (h : "charset=".toList <:+: metaReplacement m) :
    "charset=".toList <:+: m.cap1 ∨ "charset=".toList <:+: m.cap2 := by
  have e : metaReplacement m = "<meta http-equiv=\"Content-Type\"".toList ++
      ' ' :: (m.cap1 ++ ' ' :: (m.cap2 ++ '>' :: [])) := by
    unfold metaReplacement
    have : "<meta http-equiv=\"Content-Type\" ".toList =
        "<meta http-equiv=\"Content-Type\"".toList ++ [' '] := by decide
    rw [this]
    simp only [List.append_assoc, List.cons_append, List.nil_append]
  rw [e] at h
  rcases infix_append_cons ' ' _ _ (by decide) _ h with h1 | h1
  · exact absurd h1 (by decide)
  · rcases infix_append_cons ' ' _ _ (by decide) _ h1 with h2 | h2
    · exact Or.inl h2
    · rcases infix_append_cons '>' _ _ (by decide) _ h2 with h3 | h3
      · exact Or.inr h3
      · exact absurd h3 (by decide)

/-- The split at the last literal, where the literal does not stand again behind
a given place. -/
theorem splitAtLast_append (needle b : List Char)
    (hlast : ∀ s ∈ (needle ++ b).tail.tails, needle.isPrefixOf s = false) (hn : needle ≠ []) :
    ∀ a : List Char, splitAtLast needle (a ++ (needle ++ b)) = some (a, b) := by
  have hnone : ∀ l : List Char, (∀ s ∈ l.tails, needle.isPrefixOf s = false) →
      splitAtLast needle l = none := by
    intro l
    induction l with
    | nil => intro _; rfl
    | cons c cs ih =>
      intro h
      rw [splitAtLast, ih (fun s hs => h s (by simp [List.tails, hs]))]
      simp only
      rw [if_neg]
      rw [h (c :: cs) (by simp [List.tails])]
      decide
  intro a
  induction a with
  | nil =>
    obtain ⟨n, ns, rfl⟩ := List.exists_cons_of_ne_nil hn
    simp only [List.nil_append, List.cons_append] at hlast ⊢
    have hl2 : ∀ s ∈ (ns ++ b).tails, (n :: ns).isPrefixOf s = false := hlast
    rw [splitAtLast, hnone _ hl2]
    simp only
    have hp : (n :: ns).isPrefixOf (n :: (ns ++ b)) = true := by
      rw [List.isPrefixOf_iff_prefix]
      exact ⟨b, rfl⟩
    rw [if_pos hp]
    simp
  | cons x a1 ih =>
    show splitAtLast needle (x :: (a1 ++ (needle ++ b))) = some (x :: a1, b)
    rw [splitAtLast, ih]

/-- The normalizer up to a `<` of the text: it has rewritten a part `p1` of what
precedes the `<`, making no new `charset=`, and stands at the `<` itself
(`p2 = []`) or at a match that begins before the `<` and reaches beyond it. -/
theorem replaceMeta_split (X1 : List Char) :
    ∀ (n : Nat) (pre : List Char), pre.length ≤ n →
      ∃ p1 p2 P1, pre = p1 ++ p2 ∧
        replaceMeta 0 (pre ++ '<' :: X1) = P1 ++ replaceMeta 0 (p2 ++ '<' :: X1) ∧
        ("charset=".toList <:+: P1 → "charset=".toList <:+: p1) ∧
        (p2 = [] ∨ ∃ m, matchMetaAt (p2 ++ '<' :: X1) = some m ∧ p2.length < m.length) := by
  intro n
  induction n with
  | zero =>
    intro pre hp
    have : pre = [] := List.eq_nil_of_length_eq_zero (by omega)
    subst this
    exact ⟨[], [], [], rfl, rfl, fun h => h, Or.inl rfl⟩
  | succ n ih =>
    intro pre hp
    rcases pre with _ | ⟨c, cs⟩
    · exact ⟨[], [], [], rfl, rfl, fun h => h, Or.inl rfl⟩
    simp only [List.length_cons] at hp
    cases hm : matchMetaAt (c :: cs ++ '<' :: X1) with
    | none =>
      obtain ⟨q1, q2, Q, hq, hrep, hinf, hcase⟩ := ih cs (by omega)
      refine ⟨c :: q1, q2, c :: Q, by rw [hq]; rfl, ?_, ?_, hcase⟩
      · show replaceMeta 0 (c :: (cs ++ '<' :: X1)) = _
        have hm1 : matchMetaAt (c :: (cs ++ '<' :: X1)) = none := hm
        rw [replaceMeta, hm1]
        simp only [hrep, List.cons_append]
      · intro h
        rcases List.infix_cons_iff.mp h with h1 | h1
        · have hl : "charset=".toList = 'c' :: "harset=".toList := by decide
          rw [hl, List.cons_prefix_cons] at h1
          have h2 : "harset=".toList <+: replaceMeta 0 (cs ++ '<' :: X1) := by
            rw [hrep]
            exact List.IsPrefix.trans h1.2 (List.prefix_append _ _)
          rw [prefix_replaceMeta_iff _ (by decide)] at h2
          have hZ : ∃ Z, q2 ++ '<' :: X1 = '<' :: Z := by
            rcases hcase with rfl | ⟨m, hmq, _⟩
            · exact ⟨X1, rfl⟩
            · obtain ⟨ws, body, rest, hshape, _⟩ := matchMetaAt_region _ m hmq
              exact ⟨_, hshape⟩
          obtain ⟨Z, hZ⟩ := hZ
          rw [hq, List.append_assoc, hZ] at h2
          have h3 := prefix_of_prefix_append_cons '<' Z q1 _ (by decide) h2
          have h4 : "charset=".toList <+: c :: q1 := by
            rw [hl, List.cons_prefix_cons]
            exact ⟨h1.1, h3⟩
          exact h4.isInfix
        · exact List.infix_cons_iff.mpr (Or.inr (hinf h1))
    | some m =>
      obtain ⟨ws, body, rest, hshape, hws, hbody, hrep, hsplit, hlen⟩ :=
        matchMetaAt_split _ m hm
      by_cases hle : m.length ≤ (c :: cs).length
      · have hmeta : "meta".toList.length = 4 := by decide
        have hR : ('<' :: (ws ++ "meta".toList ++ body ++ ['>'])).length = m.length := by
          simp only [List.length_cons, List.length_append, List.length_nil, hmeta]
          omega
        have hE : (c :: cs) ++ '<' :: X1 =
            ('<' :: (ws ++ "meta".toList ++ body ++ ['>'])) ++ rest := by
          rw [hshape]
          simp only [List.cons_append, List.append_assoc, List.nil_append]
        have hpre : c :: cs = ('<' :: (ws ++ "meta".toList ++ body ++ ['>'])) ++
            (c :: cs).drop m.length := by
          have h1 := congrArg (List.take m.length) hE
          rw [List.take_append_of_le_length hle, ← hR, List.take_left] at h1
          rw [hR] at h1
          rw [← h1, List.take_append_drop]
        have hrest : rest = (c :: cs).drop m.length ++ '<' :: X1 := by
          have h1 := congrArg (List.drop m.length) hE
          rw [List.drop_append_of_le_length hle, ← hR, List.drop_left] at h1
          rw [hR] at h1
          exact h1.symm
        have hshort : ((c :: cs).drop m.length).length ≤ n := by
          rw [List.length_drop]
          simp only [List.length_cons] at hle ⊢
          omega
        obtain ⟨q1, q2, Q, hq, hrepq, hinf, hcase⟩ := ih _ hshort
        refine ⟨('<' :: (ws ++ "meta".toList ++ body ++ ['>'])) ++ q1, q2,
          metaReplacement m ++ Q, ?_, ?_, ?_, hcase⟩
        · rw [List.append_assoc, ← hq]
          exact hpre
        · rw [hrep, hrest, hrepq, List.append_assoc]
        · intro h
          have hb := splitAtLast_eq_some httpEquiv body _ _ hsplit
          have hcap : "charset=".toList <:+: metaReplacement m ∨ "charset=".toList <:+: Q := by
            have e : metaReplacement m ++ Q =
                ("<meta http-equiv=\"Content-Type\" ".toList ++ m.cap1 ++ [' '] ++ m.cap2) ++
                  '>' :: Q := by
              unfold metaReplacement
              simp only [List.append_assoc, List.cons_append, List.nil_append]
            rw [e] at h
            rcases infix_append_cons '>' _ _ (by decide) _ h with h1 | h1
            · left
              unfold metaReplacement
              exact List.IsInfix.trans h1 (List.prefix_append _ _).isInfix
            · exact Or.inr h1
          have hbodyR : body <:+: '<' :: (ws ++ "meta".toList ++ body ++ ['>']) :=
            ⟨'<' :: (ws ++ "meta".toList), ['>'], by
              simp only [List.cons_append, List.append_assoc]⟩
          rcases hcap with h1 | h1
          · have h2 : "charset=".toList <:+: body := by
              rcases charset_infix_metaReplacement m h1 with h3 | h3
              · rw [hb]
                exact List.IsInfix.trans h3 ⟨[], httpEquiv ++ m.cap2, by simp⟩
              · rw [hb]
                exact List.IsInfix.trans h3 ⟨m.cap1 ++ httpEquiv, [], by simp⟩
            exact List.IsInfix.trans h2
              (List.IsInfix.trans hbodyR (List.prefix_append _ _).isInfix)
          · exact List.IsInfix.trans (hinf h1) (List.suffix_append _ _).isInfix
      · exact ⟨[], c :: cs, [], rfl, rfl, fun h => h, Or.inr ⟨m, hm, by omega⟩⟩

theorem append_gt_inj (a b r1 r2 : List Char) (ha : ∀ x ∈ a, x ≠ '>') (hb : ∀ x ∈ b, x ≠ '>')
    (h : a ++ '>' :: r1 = b ++ '>' :: r2) : a = b ∧ r1 = r2 := by
  have h1 := congrArg (List.takeWhile (fun x => x != '>')) h
  rw [takeWhile_append_stop (fun x => x != '>') '>' (by decide) r1 a
      (fun y hy => by simpa using ha y hy),
    takeWhile_append_stop (fun x => x != '>') '>' (by decide) r2 b
      (fun y hy => by simpa using hb y hy)] at h1
  subst h1
  have h2 := List.append_cancel_left h
  simp only [List.cons.injEq, true_and] at h2
  exact ⟨rfl, h2⟩

theorem indexOfHeadEnd_lt_length (t : List Char) :
    ∀ k, indexOfHeadEnd t = some k → k < t.length := by
  induction t with
  | nil => intro k h; simp [indexOfHeadEnd] at h
  | cons c cs ih =>
    intro k h
    rw [indexOfHeadEnd] at h
    split at h
    · simp only [Option.some.injEq] at h
      simp only [List.length_cons]
      omega
    · cases hi : indexOfHeadEnd cs with
      | none => rw [hi] at h; simp at h
      | some k1 =>
        rw [hi] at h
        simp only [Option.map_some', Option.some.injEq] at h
        have := ih k1 hi
        simp only [List.length_cons]
        omega

/-- A match that begins before a tag and reaches beyond the start of the tag
ends with the tag: its body is the text behind its `<meta` up to the tag,
followed by the tag. -/
theorem matchMetaAt_across_tag (p2 tg post : List Char) (m : MetaMatch) (hp2 : p2 ≠ [])
    (htg : ∀ x ∈ '<' :: tg, x ≠ '>')
    (hm : matchMetaAt (p2 ++ ('<' :: tg ++ '>' :: post)) = some m)
    (hlen : p2.length < m.length) :
    ∃ u, u <:+ p2 ∧ splitAtLast httpEquiv (u ++ '<' :: tg) = some (m.cap1, m.cap2) ∧
      replaceMeta 0 (p2 ++ ('<' :: tg ++ '>' :: post)) =
        metaReplacement m ++ replaceMeta 0 post := by
  obtain ⟨ws, body, rest, hshape, hws, hbody, hrep, hsplit, hl⟩ := matchMetaAt_split _ m hm
  have hmeta : "meta".toList.length = 4 := by decide
  have hQ : ∀ x ∈ '<' :: (ws ++ "meta".toList ++ body), x ≠ '>' := by
    intro x hx
    simp only [List.mem_cons, List.mem_append] at hx
    rcases hx with rfl | (hx | hx) | hx
    · decide
    · intro hc
      rw [hc] at hx
      exact absurd (hws _ hx) (by decide)
    · revert x; decide
    · exact hbody x hx
  have hE : p2 ++ ('<' :: tg ++ '>' :: post) =
      ('<' :: (ws ++ "meta".toList ++ body)) ++ '>' :: rest := by
    rw [hshape]
    simp only [List.cons_append, List.append_assoc]
  have hle : p2.length ≤ ('<' :: (ws ++ "meta".toList ++ body)).length := by
    simp only [List.length_cons, List.length_append, hmeta]
    omega
  have hp2take : p2 = ('<' :: (ws ++ "meta".toList ++ body)).take p2.length := by
    have h1 := congrArg (List.take p2.length) hE
    rw [List.take_left, List.take_append_of_le_length hle] at h1
    exact h1
  have hp2gt : ∀ x ∈ p2, x ≠ '>' := by
    intro x hx
    rw [hp2take] at hx
    exact hQ x (List.mem_of_mem_take hx)
  have hE2 : (p2 ++ '<' :: tg) ++ '>' :: post =
      ('<' :: (ws ++ "meta".toList ++ body)) ++ '>' :: rest := by
    rw [← hE]
    simp only [List.append_assoc, List.cons_append]
  obtain ⟨hQeq, hrest⟩ := append_gt_inj _ _ _ _
    (fun x hx => by
      rcases List.mem_append.mp hx with h | h
      · exact hp2gt x h
      · exact htg x h) hQ hE2
  obtain ⟨c, p3, rfl⟩ := List.exists_cons_of_ne_nil hp2
  simp only [List.cons_append, List.cons.injEq] at hQeq
  obtain ⟨_, hQ2⟩ := hQeq
  -- the white space and `meta` of the match lie before the tag
  have hpre : ws ++ "meta".toList <+: p3 := by
    apply prefix_of_prefix_append_cons '<' tg p3
    · intro hx
      rcases List.mem_append.mp hx with h | h
      · exact absurd (hws _ h) (by decide)
      · revert h; decide
    · rw [hQ2]
      exact List.prefix_append _ _
  obtain ⟨u, hu⟩ := hpre
  refine ⟨u, ?_, ?_, ?_⟩
  · exact ⟨c :: (ws ++ "meta".toList), by rw [← hu]; simp⟩
  · have : body = u ++ '<' :: tg := by
      rw [← hu, List.append_assoc] at hQ2
      exact (List.append_cancel_left hQ2).symm
    rw [← this]
    exact hsplit
  · rw [hrep, hrest]

/-- The charset the head of the normalized document yields, where the normalizer
has left text `P1` without `charset=`, then the replacement of a match whose
captures hold `charset=ISO-8859-1"` first, then the normalized rest. -/
theorem charsetCap_head_of_normalize (pre tag post P1 f c1 : List Char) (m : MetaMatch)
    (k : Nat)
    (hnorm : normalize (pre ++ tag ++ post) = P1 ++ (metaReplacement m ++ replaceMeta 0 post))
    (hP1 : ¬ "charset=".toList <:+: P1)
    (hcaps : m.cap1 ++ ' ' :: m.cap2 =
      f ++ ("charset=".toList ++ "ISO-8859-1".toList ++ '"' :: c1))
    (hf : ¬ "charset=".toList <:+: f ++ "charset".toList)
    (hhead : indexOfHeadEnd (pre ++ tag ++ post) = some k)
    (hin : pre.length + tag.length ≤ k) :
    ∃ k1, indexOfHeadEnd (normalize (pre ++ tag ++ post)) = some k1 ∧
      charsetCap (Substring 0 k1 (normalize (pre ++ tag ++ post))) =
        "ISO-8859-1".toList := by
  -- the markers
  obtain ⟨_, hpost⟩ := indexOfHeadEnd_append_inv post (pre ++ tag) k hhead
    (by rw [List.length_append]; exact hin)
  obtain ⟨j1, hj1, hd1⟩ := (indexOfHeadEnd_normalize post).2 _ hpost
  obtain ⟨k1, hk1, hd2⟩ := (indexOfHeadEnd_normalize (pre ++ tag ++ post)).2 k hhead
  have hdrop : (pre ++ tag ++ post).drop k = post.drop (k - (pre ++ tag).length) := by
    have hk : k = (pre ++ tag).length + (k - (pre ++ tag).length) := by
      rw [List.length_append]
      omega
    conv_lhs => rw [hk]
    rw [List.drop_append]
  rw [hdrop, ← hd1] at hd2
  -- the normalized document, cut at the value
  have hG : normalize (pre ++ tag ++ post) =
      ((P1 ++ "<meta http-equiv=\"Content-Type\" ".toList ++ f) ++
        ("charset=".toList ++ "ISO-8859-1".toList ++ '"' :: (c1 ++ ['>']))) ++
        normalize post := by
    rw [hnorm]
    unfold metaReplacement normalize
    have : "<meta http-equiv=\"Content-Type\" ".toList ++ m.cap1 ++ [' '] ++ m.cap2 ++ ['>'] =
        "<meta http-equiv=\"Content-Type\" ".toList ++ (m.cap1 ++ ' ' :: m.cap2) ++ ['>'] := by
      simp only [List.append_assoc, List.cons_append, List.nil_append]
    rw [this, hcaps]
    simp only [List.append_assoc, List.cons_append, List.nil_append]
  have hlen1 := indexOfHeadEnd_lt_length _ _ hk1
  have hlen2 := indexOfHeadEnd_lt_length _ _ hj1
  have hk1eq : k1 = ((P1 ++ "<meta http-equiv=\"Content-Type\" ".toList ++ f) ++
      ("charset=".toList ++ "ISO-8859-1".toList ++ '"' :: (c1 ++ ['>']))).length + j1 := by
    have h1 := congrArg List.length hd2
    rw [hG] at h1 hlen1
    rw [List.length_drop, List.length_drop, List.length_append] at h1
    rw [List.length_append] at hlen1
    omega
  refine ⟨k1, hk1, ?_⟩
  have ehead : Substring 0 k1 (normalize (pre ++ tag ++ post)) =
      (P1 ++ "<meta http-equiv=\"Content-Type\" ".toList ++ f) ++
        ("charset=".toList ++ "ISO-8859-1".toList ++
          '"' :: (c1 ++ ['>'] ++ (normalize post).take j1)) := by
    unfold Substring
    rw [List.drop_zero, Nat.sub_zero, hG, hk1eq, List.take_append]
    simp only [List.append_assoc, List.cons_append, List.nil_append]
  rw [ehead]
  unfold charsetCap
  apply cap1Of_first _ _ _ (by decide) (by decide)
  intro s hs hsuf
  rw [List.append_assoc]
  apply charset_not_before _ _ _ s hs hsuf
  intro hinf
  have e : (P1 ++ "<meta http-equiv=\"Content-Type\" ".toList ++ f) ++ "charset".toList =
      P1 ++ '<' :: ("meta http-equiv=\"Content-Type\"".toList ++
        ' ' :: (f ++ "charset".toList)) := by
    have : "<meta http-equiv=\"Content-Type\" ".toList =
        '<' :: ("meta http-equiv=\"Content-Type\"".toList ++ [' ']) := by decide
    rw [this]
    simp only [List.append_assoc, List.cons_append, List.nil_append]
  rw [e] at hinf
  rcases infix_append_cons '<' _ _ (by decide) P1 hinf with h | h
  · exact hP1 h
  · rcases infix_append_cons ' ' _ _ (by decide) _ h with h1 | h1
    · exact absurd h1 (by decide)
    · exact hf h1

/-- The charset the head of the normalized document yields for a meta tag
`<meta BODY>` that stands before the first head-end marker with no `charset=`
before it. The tag body is cut at its last `http-equiv` literal into `h1` and
`t2`, and `h1`, a blank and `t2` in that order read `charset=ISO-8859-1"` as
their first `charset=`. -/
theorem charsetCap_head_of_meta_tag (pre post body h1 t2 f0 c1 : List Char) (k : Nat)
    (hb : ∀ x ∈ ' ' :: body, x ≠ '>')
    (hdec : ' ' :: body = h1 ++ (httpEquiv ++ t2))
    (hlast : ∀ s ∈ (httpEquiv ++ t2).tail.tails, httpEquiv.isPrefixOf s = false)
    (hcaps : h1 ++ ' ' :: t2 =
      f0 ++ ("charset=".toList ++ "ISO-8859-1".toList ++ '"' :: c1))
    (hf0 : ¬ "charset=".toList <:+: "meta".toList ++ f0 ++ "charset".toList)
    (hhead : indexOfHeadEnd
      (pre ++ ('<' :: 'm' :: 'e' :: 't' :: 'a' :: (' ' :: body ++ ['>'])) ++ post) = some k)
    (hin : pre.length + ('<' :: 'm' :: 'e' :: 't' :: 'a' :: (' ' :: body ++ ['>'])).length ≤ k)
    (hcharset : ¬ "charset=".toList <:+: pre) :
    ∃ k1, indexOfHeadEnd (normalize
        (pre ++ ('<' :: 'm' :: 'e' :: 't' :: 'a' :: (' ' :: body ++ ['>'])) ++ post)) =
        some k1 ∧
      charsetCap (Substring 0 k1 (normalize
        (pre ++ ('<' :: 'm' :: 'e' :: 't' :: 'a' :: (' ' :: body ++ ['>'])) ++ post))) =
        "ISO-8859-1".toList := by
  have hne : httpEquiv ≠ [] := by decide
  have edoc : pre ++ ('<' :: 'm' :: 'e' :: 't' :: 'a' :: (' ' :: body ++ ['>'])) ++ post =
      pre ++ '<' :: ('m' :: 'e' :: 't' :: 'a' :: ((' ' :: body) ++ '>' :: post)) := by
    simp only [List.cons_append, List.append_assoc, List.nil_append]
  obtain ⟨p1, p2, P1, hpre, hrep, hinf, hcase⟩ :=
    replaceMeta_split ('m' :: 'e' :: 't' :: 'a' :: ((' ' :: body) ++ '>' :: post))
      pre.length pre (Nat.le_refl _)
  have hP1 : ¬ "charset=".toList <:+: P1 := by
    intro h
    apply hcharset
    rw [hpre]
    exact List.IsInfix.trans (hinf h) (List.prefix_append _ _).isInfix
  by_cases hp2 : p2 = []
  · -- the normalizer stands at the tag
    subst hp2
    have hs : splitAtLast httpEquiv (' ' :: body) = some (h1, t2) := by
      rw [hdec]
      exact splitAtLast_append httpEquiv t2 hlast hne h1
    have hnorm : normalize
        (pre ++ ('<' :: 'm' :: 'e' :: 't' :: 'a' :: (' ' :: body ++ ['>'])) ++ post) =
        P1 ++ (metaReplacement ⟨h1, t2, (' ' :: body).length + 6⟩ ++ replaceMeta 0 post) := by
      unfold normalize
      rw [edoc, hrep, List.nil_append, replaceMeta_of_body _ _ h1 t2 hb hs]
    refine charsetCap_head_of_normalize pre _ post P1 f0 c1 _ k hnorm hP1 hcaps ?_ hhead hin
    intro h
    apply hf0
    exact List.IsInfix.trans h ⟨"meta".toList, [], by simp⟩
  · -- a match that began before the tag reaches beyond its start
    rcases hcase with h | ⟨m, hm, hlen⟩
    · exact absurd h hp2
    have htg : ∀ x ∈ '<' :: ('m' :: 'e' :: 't' :: 'a' :: (' ' :: body)), x ≠ '>' := by
      intro x hx
      simp only [List.mem_cons] at hx
      rcases hx with rfl | rfl | rfl | rfl | rfl | hx
      · decide
      · decide
      · decide
      · decide
      · decide
      · exact hb x (List.mem_cons.mpr hx)
    have eX : p2 ++ '<' :: ('m' :: 'e' :: 't' :: 'a' :: ((' ' :: body) ++ '>' :: post)) =
        p2 ++ ('<' :: ('m' :: 'e' :: 't' :: 'a' :: (' ' :: body)) ++ '>' :: post) := by
      simp only [List.cons_append, List.append_assoc]
    rw [eX] at hm hrep
    obtain ⟨u, hu, hsplit, hrep2⟩ := matchMetaAt_across_tag p2 _ post m hp2 htg hm hlen
    have e1 : u ++ '<' :: ('m' :: 'e' :: 't' :: 'a' :: (' ' :: body)) =
        (u ++ '<' :: 'm' :: 'e' :: 't' :: 'a' :: h1) ++ (httpEquiv ++ t2) := by
      rw [hdec]
      simp only [List.cons_append, List.append_assoc]
    rw [e1, splitAtLast_append httpEquiv t2 hlast hne] at hsplit
    simp only [Option.some.injEq, Prod.mk.injEq] at hsplit
    obtain ⟨hc1, hc2⟩ := hsplit
    have hnorm : normalize
        (pre ++ ('<' :: 'm' :: 'e' :: 't' :: 'a' :: (' ' :: body ++ ['>'])) ++ post) =
        P1 ++ (metaReplacement m ++ replaceMeta 0 post) := by
      unfold normalize
      rw [edoc, hrep, hrep2]
    have hcaps2 : m.cap1 ++ ' ' :: m.cap2 =
        (u ++ '<' :: 'm' :: 'e' :: 't' :: 'a' :: f0) ++
          ("charset=".toList ++ "ISO-8859-1".toList ++ '"' :: c1) := by
      rw [← hc1, ← hc2]
      simp only [List.append_assoc, List.cons_append]
      rw [hcaps]
      simp only [List.append_assoc, List.cons_append]
    refine charsetCap_head_of_normalize pre _ post P1 _ c1 m k hnorm hP1 hcaps2 ?_ hhead hin
    intro h
    have e2 : (u ++ '<' :: 'm' :: 'e' :: 't' :: 'a' :: f0) ++ "charset".toList =
        u ++ '<' :: ("meta".toList ++ f0 ++ "charset".toList) := by
      have : "meta".toList = ['m', 'e', 't', 'a'] := by decide
      rw [this]
      simp only [List.append_assoc, List.cons_append, List.nil_append]
    rw [e2] at h
    rcases infix_append_cons '<' _ _ (by decide) u h with h1 | h1
    · apply hcharset
      rw [hpre]
      exact List.IsInfix.trans h1
        (List.IsInfix.trans hu.isInfix (List.suffix_append _ _).isInfix)
    · exact hf0 h1

/-- C12 (amended): a document holds the meta tag, in either attribute order,
before its first head-end marker, and no `charset=` stands in the document
before the tag. Given a registry that resolves `ISO-8859-1` and a sniffer that
returns that codec or the locale default, the result is the ISO-8859-1 codec. -/
theorem GetCodecForHTML_meta_charset (qt : Qt) (raw_text : Option (List Nat))
    (pre tag post : List Char) (head_end : Nat) (iso : QTextCodec)
    (hdoc : fromAscii raw_text = pre ++ tag ++ post)
    (htag : tag = metaHttpEquivFirst ∨ tag = metaContentFirst)
    (hhead : indexOfHeadEnd (fromAscii raw_text) = some head_end)
    (hin : pre.length + tag.length ≤ head_end)
    (hcharset : ¬ "charset=".toList <:+: pre)
    (hreg : qt.codecForName (cstr "ISO-8859-1") = some iso)
    (hsniff : qt.codecForHtml (toAscii (normalize (fromAscii raw_text))) qt.codecForLocale =
        iso ∨
      qt.codecForHtml (toAscii (normalize (fromAscii raw_text))) qt.codecForLocale =
        qt.codecForLocale) :
    GetCodecForHTML qt raw_text = some iso := by
  have hcap : ∃ k1, indexOfHeadEnd (normalize (fromAscii raw_text)) = some k1 ∧
      charsetCap (Substring 0 k1 (normalize (fromAscii raw_text))) = "ISO-8859-1".toList := by
    rw [hdoc] at hhead ⊢
    rcases htag with rfl | rfl
    · have e : metaHttpEquivFirst = '<' :: 'm' :: 'e' :: 't' :: 'a' :: (' ' ::
          "http-equiv=\"Content-Type\" content=\"text/html; charset=ISO-8859-1\"".toList ++
            ['>']) := by decide
      rw [e] at hhead hin ⊢
      exact charsetCap_head_of_meta_tag pre post _ [' ']
        " content=\"text/html; charset=ISO-8859-1\"".toList
        "   content=\"text/html; ".toList [] head_end
        (by decide) (by decide) (by decide) (by decide) (by decide) hhead hin hcharset
    · have e : metaContentFirst = '<' :: 'm' :: 'e' :: 't' :: 'a' :: (' ' ::
          "content=\"text/html; charset=ISO-8859-1\" http-equiv=\"Content-Type\"".toList ++
            ['>']) := by decide
      rw [e] at hhead hin ⊢
      exact charsetCap_head_of_meta_tag pre post _
        " content=\"text/html; charset=ISO-8859-1\" ".toList []
        " content=\"text/html; ".toList "  ".toList head_end
        (by decide) (by decide) (by decide) (by decide) (by decide) hhead hin hcharset
  obtain ⟨k1, hk1, hc⟩ := hcap
  by_cases hname : (qt.codecForHtml (toAscii (normalize (fromAscii raw_text)))
      qt.codecForLocale).name = qt.codecForLocale.name
  · rw [GetCodecForHTML_of_locale_sniff qt _ hname]
    unfold declaredCodec
    have hreg1 : qt.codecForName (toAscii "ISO-8859-1".toList) = some iso := hreg
    simp only [hk1, hc, hreg1]
  · unfold GetCodecForHTML
    simp only [hname, if_false]
    rcases hsniff with h | h
    · rw [h]
    · rw [h] at hname
      exact absurd rfl hname

theorem GetCodecForHTML_meta_charset_witness :
    fromAscii (some docContentFirst) =
      "<html><head><title>t</title>".toList ++ metaContentFirst ++
        "</head><body></body></html>".toList ∧
    indexOfHeadEnd (fromAscii (some docContentFirst)) = some 100 ∧
    "<html><head><title>t</title>".toList.length + metaContentFirst.length ≤ 100 ∧
    ¬ "charset=".toList <:+: "<html><head><title>t</title>".toList ∧
    latin1Qt.codecForName (cstr "ISO-8859-1") = some ⟨"ISO-8859-1"⟩ ∧
    GetCodecForHTML latin1Qt (some docContentFirst) = some ⟨"ISO-8859-1"⟩ :=
  ⟨by decide, by decide, by decide, by decide, by decide,
    GetCodecForHTML_meta_charset latin1Qt (some docContentFirst)
      "<html><head><title>t</title>".toList metaContentFirst
      "</head><body></body></html>".toList 100 ⟨"ISO-8859-1"⟩
      (by decide) (Or.inr rfl) (by decide) (by decide) (by decide) (by decide)
      (Or.inl rfl)⟩

end Sigil
